import Mathlib

/-!
# ZomboidModListToServerConfig: the extraction and disambiguation pipeline

A shallow embedding of `main.go`.  Go strings are modelled as lists of
characters (`Str`); the model is byte-exact on ASCII text, where a character is
one byte and `strings.ToLower` is the ASCII case map.  A run-time panic and the
early `return` of `main` are explicit results (`Fault`).

The first part models the library calls the program makes (`strings`,
`regexp`), each after the documented behaviour of the Go standard library; the
second part is the program itself, function by function, with the names of the
source.
-/

namespace ZomboidModList

/-- A Go string, as the list of its characters. -/
abbrev Str := List Char

/-- How a computation of the program stops without a value: a run-time panic
(index out of range, nil dereference, `panic(err)`), or the early `return` of
`main` after a failed read. -/
inductive Fault where
  | panic
  | exit
deriving DecidableEq, Repr

/-! ## Slices and indexing -/

/-- Indexing `xs[i]` with a Go `int`: panics outside `0 ≤ i < len(xs)`. -/
def index {α : Type} (xs : List α) (i : Int) : Except Fault α :=
  if i < 0 then .error .panic
  else match xs.get? i.toNat with
    | some x => .ok x
    | none => .error .panic

/-- Slicing `s[lo:hi]`: panics unless `0 ≤ lo ≤ hi ≤ len(s)`. -/
def slice (s : Str) (lo hi : Int) : Except Fault Str :=
  if 0 ≤ lo ∧ lo ≤ hi ∧ hi ≤ (s.length : Int) then
    .ok ((s.drop lo.toNat).take (hi.toNat - lo.toNat))
  else .error .panic

/-- Assignment `xs[i] = v` with a non-negative index: panics when `i ≥ len(xs)`. -/
def setIndex {α : Type} (xs : List α) (i : Nat) (v : α) : Except Fault (List α) :=
  if i < xs.length then .ok (xs.set i v) else .error .panic

/-! ## Package `strings` -/

/-- Go `strings.ToLower` on ASCII text: `A`..`Z` are mapped to `a`..`z`.  It is
`ToLowerBy` below for the ASCII case table. -/
def ToLower (s : Str) : Str := s.map Char.toLower

/-- Go `strings.ToLower` on any text: every character is replaced by its
lower-case character, `unicode.ToLower`.  The case table of package `unicode`
is not part of the program and is the parameter `lower`; on ASCII characters
every such table is `Char.toLower`. -/
def ToLowerBy (lower : Char → Char) (s : Str) : Str := s.map lower

/-- Search of `sub` in `s` from offset `i`: the offset of the first occurrence,
or `-1`. -/
def indexFrom (sub : Str) : Str → Nat → Int
  | [], i => if sub = [] then (i : Int) else -1
  | c :: cs, i => if sub.isPrefixOf (c :: cs) then (i : Int) else indexFrom sub cs (i + 1)

/-- Go `strings.Index`: offset of the first occurrence of `sub` in `s`, `-1`
when there is none, `0` when `sub` is empty. -/
def Index (s sub : Str) : Int := indexFrom sub s 0

/-- Go `strings.Contains`. -/
def Contains (s sub : Str) : Bool := decide (0 ≤ Index s sub)

/-- Go `explode`: the string cut into its characters (the case of an empty
separator in `strings.Split`); the empty string gives the empty slice. -/
def explode (s : Str) : List Str := s.map fun c => [c]

/-- The loop of Go `genSplit` for a non-empty separator: cut at each occurrence
found left to right, occurrences not overlapping.  The first argument bounds the
number of cuts; `len(s)` is always enough. -/
def splitLoop : Nat → Str → Str → List Str
  | 0, s, _ => [s]
  | n + 1, s, sep =>
    let m := Index s sep
    if m < 0 then [s]
    else s.take m.toNat :: splitLoop n (s.drop (m.toNat + sep.length)) sep

/-- Go `strings.Split`. -/
def Split (s sep : Str) : List Str :=
  if sep = [] then explode s else splitLoop s.length s sep

/-- Go `strings.Join`: nothing for no element, the element itself for one,
otherwise the first element followed by separator and element for each of the
others. -/
def Join : List Str → Str → Str
  | [], _ => []
  | [e], _ => e
  | e :: es, sep => es.foldl (fun b s => b ++ sep ++ s) e

/-- The loop of Go `strings.Replace` with `n = -1` for a non-empty `old`. -/
def replaceLoop : Nat → Str → Str → Str → Str
  | 0, s, _, _ => s
  | n + 1, s, old, new =>
    let m := Index s old
    if m < 0 then s
    else s.take m.toNat ++ new ++ replaceLoop n (s.drop (m.toNat + old.length)) old new

/-- Go `strings.Replace(s, old, new, -1)` for a non-empty `old` (the only use
in the program); an empty `old` is outside the model and leaves `s` as it is. -/
def Replace (s old new : Str) : Str :=
  if old = [] then s else replaceLoop s.length s old new

/-- Go `unicode.IsSpace`: the characters `strings.TrimSpace` removes. -/
def isSpace (c : Char) : Bool :=
  let n := c.toNat
  (9 ≤ n && n ≤ 13) || n = 32 || n = 0x85 || n = 0xA0 || n = 0x1680 ||
  (0x2000 ≤ n && n ≤ 0x200A) || n = 0x2028 || n = 0x2029 || n = 0x202F ||
  n = 0x205F || n = 0x3000

/-- Go `strings.TrimSpace`. -/
def TrimSpace (s : Str) : Str :=
  ((s.dropWhile isSpace).reverse.dropWhile isSpace).reverse

/-! ## Package `regexp`, for the two patterns of the program -/

/-- The class `\s` of Go regular expressions, `[\t\n\f\r ]`. -/
def isRegexSpace (c : Char) : Bool :=
  c = '\t' || c = '\n' || c = Char.ofNat 12 || c = '\r' || c = ' '

/-- `ReplaceAllString(input, "\n")` for the pattern `<[^>]*>`, read left to
right.  A match starts at the leftmost `<` that has a `>` somewhere after it
and, `[^>]` never matching `>`, ends at the first `>` that follows; the search
goes on after the match.  The flag says that the scan is inside a match. -/
def replaceTags : Bool → Str → Str
  | _, [] => []
  | true, c :: cs => if c = '>' then replaceTags false cs else replaceTags true cs
  | false, c :: cs =>
    if c = '<' ∧ '>' ∈ cs then '\n' :: replaceTags true cs
    else c :: replaceTags false cs

/-- The lengths `n, n-1, ..., 1`, in the order a greedy repetition tries them. -/
def greedyLengths (n : Nat) : List Nat := (List.range' 1 n).reverse

/-- The tail `(.+)\s+` of the value pattern at the start of `r`: `.` matches
every character but the newline, the capture is tried longest first, and the
closing `\s+` then takes every space that follows.  Gives the captured text and
the length matched. -/
def matchCapture (r : Str) : Option (Str × Nat) :=
  (greedyLengths (r.takeWhile fun c => c ≠ '\n').length).findSome? fun j =>
    let tail := (r.drop j).takeWhile isRegexSpace
    if tail = [] then none else some (r.take j, j + tail.length)

/-- The pattern `<pfx>\s+(.+)\s+` at the start of `s`, for a `pfx` without
regular-expression metacharacters: the match a backtracking search finds first
(Go's leftmost-first rule), each repetition greedy. -/
def matchValueAt (pfx s : Str) : Option (Str × Nat) :=
  if pfx.isPrefixOf s then
    let r := s.drop pfx.length
    (greedyLengths (r.takeWhile isRegexSpace).length).findSome? fun k =>
      (matchCapture (r.drop k)).map fun m => (m.1, pfx.length + k + m.2)
  else none

/-- `FindAllStringSubmatch(s, -1)` for the pattern `<pfx>\s+(.+)\s+`, keeping
of each match the text of its capture group (`match[1]`): successive leftmost
matches, the search resuming where the previous match ended.  The number is how
many characters of the last match are still to be stepped over. -/
def findAllSubmatch (pfx : Str) : Nat → Str → List Str
  | _, [] => []
  | skip + 1, _ :: cs => findAllSubmatch pfx skip cs
  | 0, c :: cs =>
    match matchValueAt pfx (c :: cs) with
    | some m => m.1 :: findAllSubmatch pfx (m.2 - 1) cs
    | none => findAllSubmatch pfx 0 cs

/-! ## The label-anchored extractor -/

/-- Source `produceVariants`, with the ASCII case table; the program calls it
on the ASCII labels `Mod ID:` and `Map Folder:` only. -/
def produceVariants (str : Str) : List Str :=
  let str := ToLower str
  [str, Replace str [' '] [], Replace str [':'] []]

/-- Source `produceVariants` on any label, over the case table `lower` of
package `unicode`. -/
def produceVariantsBy (lower : Char → Char) (str : Str) : List Str :=
  let str := ToLowerBy lower str
  [str, Replace str [' '] [], Replace str [':'] []]

/-- Source `findVariant`: the first variant contained in `str`, the empty
string when there is none. -/
def findVariant (str : Str) : List Str → Str
  | [] => []
  | variant :: variants =>
    if Contains str variant then variant else findVariant str variants

/-- Source `StripHTMLTags`. -/
def StripHTMLTags (input : Str) : Str := replaceTags false input

/-- The loop of source `parseValues`: for each captured text, its first
occurrence in `strLower` is located again with `strings.Index` and the slice of
`str` at these offsets is trimmed. -/
def recoverValues (str strLower : Str) : List Str → Except Fault (List Str)
  | [] => .ok []
  | m1 :: ms => do
    let i := Index strLower m1
    let value ← slice str i (i + m1.length)
    let values ← recoverValues str strLower ms
    .ok (TrimSpace value :: values)

/-- Source `parseValues`, for a `pfx` without regular-expression
metacharacters (it is spliced into the pattern as it is). -/
def parseValues (str pfx : Str) : Except Fault (List Str) :=
  let strLower := ToLower str
  recoverValues str strLower (findAllSubmatch pfx 0 strLower)

/-- Source `stripParse`. -/
def stripParse (str : Str) (variants : List Str) : Except Fault (List Str) := do
  let lowerStr := ToLower str
  let sep ← slice str 0 (Index lowerStr (findVariant lowerStr variants))
  let a ← index (Split str sep) 1
  let a := StripHTMLTags a
  let alower := ToLower a
  parseValues a (findVariant alower variants)

/-- Source `processModIdentifier`. -/
def processModIdentifier (buff : Str) : Except Fault (List Str × List Str) := do
  let modvariants := produceVariants "Mod ID:".toList
  let mapvariants := produceVariants "Map Folder:".toList
  let modId ← stripParse buff modvariants
  let mpId ← stripParse buff mapvariants
  .ok (modId, mpId)

/-! ## The document tree (`golang.org/x/net/html`) -/

/-- Go `html.NodeType`. -/
inductive NodeType where
  | ErrorNode
  | TextNode
  | DocumentNode
  | ElementNode
  | CommentNode
  | DoctypeNode
  | RawNode
deriving DecidableEq, Repr

/-- Go `html.Attribute`. -/
structure Attribute where
  Namespace : Str
  Key : Str
  Val : Str
deriving DecidableEq, Repr

/-- Go `html.Node`: the chain `FirstChild`, `NextSibling`, ... of a node is the
list of its children, in document order.  A `*html.Node` is an `Option Node`,
`none` being the nil pointer. -/
inductive Node where
  | mk (type : NodeType) (Data : Str) (Attr : List Attribute) (children : List Node)

/-- Field `Type` of a node. -/
def Node.type : Node → NodeType
  | .mk t _ _ _ => t

/-- Field `Data` of a node. -/
def Node.Data : Node → Str
  | .mk _ d _ _ => d

/-- Field `Attr` of a node. -/
def Node.Attr : Node → List Attribute
  | .mk _ _ a _ => a

/-- The children of a node, from `FirstChild` along `NextSibling`. -/
def Node.children : Node → List Node
  | .mk _ _ _ cs => cs

/-! ## The tree locator -/

/-- The loop of source `getAttribute` over `node.Attr`. -/
def getAttributeLoop (tag : Str) : List Attribute → Str × Bool
  | [] => ([], false)
  | attr :: rest => if attr.Key = tag then (attr.Val, true) else getAttributeLoop tag rest

/-- Source `getAttribute`. -/
def getAttribute (node : Node) (tag : Str) : Str × Bool :=
  getAttributeLoop tag node.Attr

/-- Source `hasAttr`. -/
def hasAttr (node : Node) (id attr : Str) : Bool :=
  if node.type ≠ NodeType.ElementNode then false
  else
    let r := getAttribute node attr
    if r.2 ∧ r.1 = id then true else false

mutual
/-- Source `traverse`, on a non-nil node. -/
def traverse : Node → Str → Str → Option Node
  | .mk t d a cs, id, attr =>
    if hasAttr (.mk t d a cs) id attr then some (.mk t d a cs)
    else traverseChildren cs id attr
/-- The `for child := node.FirstChild; ...` loop of source `traverse`. -/
def traverseChildren : List Node → Str → Str → Option Node
  | [], _, _ => none
  | child :: siblings, id, attr =>
    match traverse child id attr with
    | some result => some result
    | none => traverseChildren siblings id attr
end

mutual
/-- The closure `traverse` inside source `doTraverse`, on a non-nil node; it
gives the slice `*data` after the walk together with the closure's result. -/
def doTraverseNode : Node → List Node → Str → Str → List Node × Option Node
  | .mk _ _ _ cs, data, id, attr => doTraverseChildren cs data id attr
/-- The `for child := node.FirstChild; ...` loop of that closure. -/
def doTraverseChildren : List Node → List Node → Str → Str → List Node × Option Node
  | [], data, _, _ => (data, none)
  | child :: siblings, data, id, attr =>
    let data := if hasAttr child id attr then data ++ [child] else data
    match doTraverseNode child data id attr with
    | (data, some result) => (data, some result)
    | (data, none) => doTraverseChildren siblings data id attr
end

/-- Source `doTraverse`, on a non-nil node: the slice `*data` after the call. -/
def doTraverse (node : Node) (data : List Node) (id attr : Str) : List Node :=
  (doTraverseNode node data id attr).1

/-- Source `getFirstElementByAttr`, on a non-nil node. -/
def getFirstElementByAttr (node : Node) (id attr : Str) : Option Node :=
  traverse node id attr

/-- Source `getContent`: `node.FirstChild.Data`, a nil dereference when the
node is nil or has no child. -/
def getContent : Option Node → Except Fault Str
  | none => .error .panic
  | some node =>
    match node.children with
    | [] => .error .panic
    | first :: _ => .ok first.Data

/-! ## The collaborators outside the program -/

/-- What `html.Render` does with a node: it writes a text, returns an error, or
panics. -/
inductive RenderResult where
  | text (s : Str)
  | err
  | panic

/-- The network and the HTML library, as the program sees them. -/
structure World where
  /-- The body `http.Get` and `io.ReadAll` deliver for a URL, `none` when either fails. -/
  httpGet : Str → Option Str
  /-- The tree `html.Parse` builds, `none` (a nil node) when it returns an error. -/
  htmlParse : Str → Option Node
  /-- The text `html.Render` writes for a `*html.Node`. -/
  htmlRender : Option Node → RenderResult

/-- Source `loadUrlContent`: the body, or nil after a failure. -/
def loadUrlContent (world : World) (url : Str) : Option Str := world.httpGet url

/-- Source `parseHtmlContent`: a nil byte slice reads as the empty string. -/
def parseHtmlContent (world : World) (b : Option Str) : Option Node :=
  world.htmlParse (b.getD [])

/-- Source `renderNode`: the empty string when rendering returns an error. -/
def renderNode (world : World) (node : Option Node) : Except Fault Str :=
  match world.htmlRender node with
  | .text s => .ok s
  | .err => .ok []
  | .panic => .error .panic

/-! ## The disambiguator -/

/-- Source `reservedPlaceholder`; `reservedIndex` is always a length. -/
structure reservedPlaceholder where
  placeholderType : Str
  options : List Str
  reservedIndex : Nat
  itemTitle : Str
  itemId : Str
deriving DecidableEq, Repr

/-- Source `reservedOrPlaceholder`: the slice `*placeholder` after the call and
the returned string; `checkItem[0]` panics on an empty `checkItem`. -/
def reservedOrPlaceholder (placeholder : List reservedPlaceholder) (checkItem : List Str)
    (idx : Nat) (t iid ittl : Str) : Except Fault (List reservedPlaceholder × Str) := do
  let placeholder :=
    if checkItem.length > 1 then
      placeholder ++ [{ placeholderType := t, reservedIndex := idx, options := checkItem,
                        itemId := iid, itemTitle := ittl }]
    else placeholder
  let first ← index checkItem 0
  .ok (placeholder, first)

/-- The variables `workshopIds`, `modIds`, `mapIds`, `reservedIndexes` of `main`. -/
structure ScanState where
  workshopIds : List Str
  modIds : List Str
  mapIds : List Str
  reservedIndexes : List reservedPlaceholder
deriving DecidableEq, Repr

/-- The state before the scan loop: all four slices nil. -/
def ScanState.init : ScanState := ⟨[], [], [], []⟩

/-- The end of the loop body of `main` (source lines 255-261): the item's
results are committed. -/
def commitItem (st : ScanState) (workshopId title : Str) (modId mpId : List Str) :
    Except Fault ScanState := do
  let workshopIds := st.workshopIds ++ [workshopId]
  let mapIds := if mpId.length > 0 then st.mapIds ++ mpId else st.mapIds
  if modId.length > 0 then
    let r ← reservedOrPlaceholder st.reservedIndexes modId st.modIds.length
      "mod".toList workshopId title
    .ok { workshopIds := workshopIds, modIds := st.modIds ++ [r.2], mapIds := mapIds,
          reservedIndexes := r.1 }
  else
    .ok { workshopIds := workshopIds, modIds := st.modIds, mapIds := mapIds,
          reservedIndexes := st.reservedIndexes }

/-- The body of the scan loop of `main` for the collection item `item`
(`data[i]`), source lines 238-262; progress reporting and the delay are left
out. -/
def scanItem (world : World) (st : ScanState) (item : Node) : Except Fault ScanState := do
  let title ← getContent (getFirstElementByAttr item "workshopItemTitle".toList "class".toList)
  let contentId := (getAttribute item "id".toList).1
  let workshopId ← index (Split contentId "_".toList) 1
  let u := "https://steamcommunity.com/sharedfiles/filedetails/?id=".toList ++ workshopId
  let b := loadUrlContent world u
  let n := parseHtmlContent world b
  let desc ← match n with
    | none => .error .panic
    | some n => .ok (getFirstElementByAttr n "highlightContent".toList "id".toList)
  let buff ← renderNode world desc
  let r ← processModIdentifier buff
  commitItem st workshopId title r.1 r.2

/-- The scan loop of `main` over the collected items. -/
def scanLoop (world : World) : ScanState → List Node → Except Fault ScanState
  | st, [] => .ok st
  | st, item :: items => do
    let st ← scanItem world st item
    scanLoop world st items

/-! ## Resolution and output -/

/-- Source `createConfigOutput`. -/
def createConfigOutput (workshop mod : List Str) (m : Str) : Str :=
  "WorkshopItems=".toList ++ Join workshop ";".toList ++ ";\nMods=".toList ++
    Join mod ";".toList ++ ";\nMap=".toList ++ m ++ ";".toList

/-- The operator's answers: one entry for each `fmt.Scanln(&input)` of an
integer, `none` when the line does not scan as one integer. -/
abbrev Answers := List (Option Int)

/-- One `fmt.Scanln(&input)`: the value read and the answers left; the end of
the input is an error too. -/
def scanln : Answers → Option Int × Answers
  | [] => (none, [])
  | a :: rest => (a, rest)

/-- The resolution loop of `main` (source lines 269-285) over the placeholders:
a failed read makes `main` return, an index outside the slices panics. -/
def resolveMods : List reservedPlaceholder → List Str → Answers →
    Except Fault (List Str × Answers)
  | [], modIds, answers => .ok (modIds, answers)
  | res :: rest, modIds, answers =>
    match scanln answers with
    | (none, _) => .error .exit
    | (some input, answers) => do
      let option ← index res.options input
      let modIds ← setIndex modIds res.reservedIndex option
      resolveMods rest modIds answers

/-- The map selection of `main` (source lines 287-299) on the slice `mapIds` it
finds: the selected map id and the answers left. -/
def resolveMap (mapIds : List Str) (answers : Answers) : Except Fault (Str × Answers) :=
  if mapIds.length > 0 then
    match scanln answers with
    | (none, _) => .error .panic
    | (some input, answers) => do
      let mapId ← index mapIds input
      .ok (mapId, answers)
  else .ok ([], answers)

/-- The selections and the output of `main` after the scan loop (source lines
264 and 269-301): the printed configuration and the answers not read.  The
calls of the progress bar in between (source lines 266-267) are in `finish`. -/
def resolve (st : ScanState) (answers : Answers) : Except Fault (Str × Answers) := do
  let mapIds := st.mapIds ++ [[]]
  let r ← resolveMods st.reservedIndexes st.modIds answers
  let m ← resolveMap mapIds r.2
  .ok (createConfigOutput st.workshopIds r.1 m.1, m.2)

/-! ## The progress bar -/

/-- The slice `steps` of `main` (source line 222).  The loop body overwrites
its entries 1 and 2 with texts about the item; its length stays 4. -/
def steps : List Str :=
  ["scanning for collection items...".toList, "fetching workshop content".toList,
   "parsing workshop content".toList, "collecting mod details".toList]

/-- The closure given to `bar.PrependFunc` (source lines 225-227), called by
uiprogress each time it prints the bar, for a bar whose `Current()` is
`current`: `steps[(b.Current()-1)%len(steps)]`.  Go's `%` on `int` keeps the
sign of the dividend. -/
def barPrepend (steps : List Str) (current : Int) : Except Fault Str :=
  index steps (Int.tmod (current - 1) (steps.length : Int))

/-- The run of `main` after the scan of `n` items, progress bar included (source
lines 264-301).  The bar has total `4 * n` and `bar.Incr()` was called four
times for each item, so `Current()` is `4 * n`; on `uiprogress.Stop()` the
listener prints the bar before it stops, which calls the closure. -/
def finish (n : Nat) (st : ScanState) (answers : Answers) : Except Fault (Str × Answers) := do
  let _ ← barPrepend steps (4 * (n : Int))
  resolve st answers

/-- The run of `main` from the URL read (source lines 213-301). -/
def run (world : World) (url : Str) (answers : Answers) : Except Fault (Str × Answers) := do
  let body := loadUrlContent world url
  match parseHtmlContent world body with
  | none => .error .panic
  | some node =>
    let modList := getFirstElementByAttr node "workshopItemTitle".toList "class".toList
    let data := doTraverse node [] "collectionItem".toList "class".toList
    let _ ← getContent modList
    let st ← scanLoop world ScanState.init data
    finish data.length st answers

/-! ## Notions of the specification -/

mutual
/-- The proper descendants of a node in document order (pre-order). -/
def Node.descendants : Node → List Node
  | .mk _ _ _ cs => preorder cs
/-- The nodes of a list of sibling subtrees in document order: each node is
followed by its descendants, then by the next sibling's subtree. -/
def preorder : List Node → List Node
  | [] => []
  | c :: cs => c :: (c.descendants ++ preorder cs)
end

mutual
/-- Number of nodes of a subtree. -/
def Node.size : Node → Nat
  | .mk _ _ _ cs => forestSize cs + 1
/-- Number of nodes of a list of subtrees. -/
def forestSize : List Node → Nat
  | [] => 0
  | c :: cs => c.size + forestSize cs
end

/-- The predicate of the locators, in the specification's words: an element
node whose first attribute named `attr` has the value `value`. -/
def matchesAttr (value attr : Str) (n : Node) : Prop :=
  n.type = NodeType.ElementNode ∧
    (n.Attr.find? fun a => decide (a.Key = attr)).map Attribute.Val = some value

instance (value attr : Str) (n : Node) : Decidable (matchesAttr value attr n) := by
  unfold matchesAttr
  infer_instance

/-- An id a configuration line carries unambiguously: free of the separator
`;` and of the newline. -/
def plainId (s : Str) : Prop := ';' ∉ s ∧ '\n' ∉ s

instance (s : Str) : Decidable (plainId s) := by
  unfold plainId
  infer_instance

/-- Reading back the ids of one line body `<id1>;<id2>;...;`: the fields before
each `;`, a single empty field standing for no id. -/
def parseIds (body : Str) : List Str :=
  let fields := (body.splitOn ';').dropLast
  if fields = [[]] then [] else fields

/-- Reading back the three lines of a configuration: the ids of the first two
lines after their labels `WorkshopItems=` and `Mods=`, and what stands between
`Map=` and the closing `;` in the remainder. -/
def parseConfig (out : Str) : List Str × List Str × Str :=
  let line1 := out.takeWhile fun c => decide (c ≠ '\n')
  let rest1 := (out.dropWhile fun c => decide (c ≠ '\n')).drop 1
  let line2 := rest1.takeWhile fun c => decide (c ≠ '\n')
  let rest2 := (rest1.dropWhile fun c => decide (c ≠ '\n')).drop 1
  (parseIds (line1.drop 14), parseIds (line2.drop 5), (rest2.drop 4).dropLast)

/-- The placeholders point into `modIds`, at strictly increasing positions. -/
def ScanState.wellReserved (st : ScanState) : Prop :=
  (st.reservedIndexes.map reservedPlaceholder.reservedIndex).Pairwise (· < ·)
    ∧ ∀ p ∈ st.reservedIndexes, p.reservedIndex < st.modIds.length

/-! ## Scenario B of the specification -/

/-- A collection item with workshop id `2169435993` and title `Two Mods`. -/
def scenarioBItem : Node :=
  .mk .ElementNode "div".toList
    [⟨[], "id".toList, "sharedfile_2169435993".toList⟩,
     ⟨[], "class".toList, "collectionItem".toList⟩]
    [.mk .ElementNode "div".toList [⟨[], "class".toList, "workshopItemTitle".toList⟩]
      [.mk .TextNode "Two Mods".toList [] []]]

/-- A detail page whose main content region names two mod ids. -/
def scenarioBPage : Node :=
  .mk .DocumentNode [] []
    [.mk .ElementNode "html".toList []
      [.mk .ElementNode "body".toList []
        [.mk .ElementNode "div".toList [⟨[], "id".toList, "highlightContent".toList⟩]
          [.mk .TextNode "Mod ID: 111".toList [] [], .mk .ElementNode "br".toList [] [],
           .mk .TextNode "Mod ID: 222".toList [] [], .mk .ElementNode "br".toList [] []]]]]

/-- A world that serves this page for every URL. -/
def scenarioBWorld : World where
  httpGet := fun _ => some "<html>".toList
  htmlParse := fun _ => some scenarioBPage
  htmlRender := fun n =>
    match n with
    | some _ => .text "<div>Mod ID: 111<br/>Mod ID: 222<br/></div>".toList
    | none => .panic

/-- The state after scanning the one item of scenario B. -/
def scenarioBState : ScanState :=
  { workshopIds := ["2169435993".toList], modIds := ["111".toList], mapIds := [],
    reservedIndexes :=
      [{ placeholderType := "mod".toList, options := ["111".toList, "222".toList],
         reservedIndex := 0, itemTitle := "Two Mods".toList,
         itemId := "2169435993".toList }] }

/-! ## A failed fetch -/

/-- A detail page without a main content region: what `html.Parse` builds from
an empty body. -/
def emptyPage : Node :=
  .mk .DocumentNode [] []
    [.mk .ElementNode "html".toList []
      [.mk .ElementNode "head".toList [] [], .mk .ElementNode "body".toList [] []]]

/-- A world where every fetch fails and rendering the nil node returns an error. -/
def failedFetchWorld : World where
  httpGet := fun _ => none
  htmlParse := fun _ => some emptyPage
  htmlRender := fun n =>
    match n with
    | some _ => .text "<html><head></head><body></body></html>".toList
    | none => .err

/-- A text with no markup fragment left: no `<` is followed, anywhere later, by
a `>` (nothing in it matches `<[^>]*>`). -/
def noFragment (s : Str) : Prop :=
  ∀ pre post : Str, s = pre ++ '<' :: post → '>' ∉ post

/-! ## The loop body in two parts -/

/-- What the loop body of `main` has found for one collection item when it
starts to commit (source line 254): `workshopId`, `title`, `modId`, `mpId`. -/
structure ItemResult where
  workshopId : Str
  title : Str
  modId : List Str
  mpId : List Str
deriving DecidableEq, Repr

/-- The loop body of `main` up to the call of `processModIdentifier` (source
lines 239-254), the same steps as in `scanItem`. -/
def extractItem (world : World) (item : Node) : Except Fault ItemResult := do
  let title ← getContent (getFirstElementByAttr item "workshopItemTitle".toList "class".toList)
  let contentId := (getAttribute item "id".toList).1
  let workshopId ← index (Split contentId "_".toList) 1
  let u := "https://steamcommunity.com/sharedfiles/filedetails/?id=".toList ++ workshopId
  let b := loadUrlContent world u
  let n := parseHtmlContent world b
  let desc ← match n with
    | none => .error .panic
    | some n => .ok (getFirstElementByAttr n "highlightContent".toList "id".toList)
  let buff ← renderNode world desc
  let r ← processModIdentifier buff
  .ok { workshopId := workshopId, title := title, modId := r.1, mpId := r.2 }

/-- The placeholder invariant of the scan loop: every placeholder has at least
two options, its reserved index is a position of `modIds`, `modIds` holds the
placeholder's first option there, and the reserved indexes increase strictly in
creation order. -/
def ScanState.placeholdersSound (st : ScanState) : Prop :=
  (st.reservedIndexes.map reservedPlaceholder.reservedIndex).Pairwise (· < ·)
    ∧ ∀ p ∈ st.reservedIndexes, 2 ≤ p.options.length ∧ p.reservedIndex < st.modIds.length
        ∧ st.modIds.get? p.reservedIndex = p.options.get? 0

/-! ## Scenario C of the specification -/

/-- The collection item with workshop id `n` and title `Map n`. -/
def scenarioCItem (n : Str) : Node :=
  .mk .ElementNode "div".toList
    [⟨[], "id".toList, "sharedfile_".toList ++ n⟩,
     ⟨[], "class".toList, "collectionItem".toList⟩]
    [.mk .ElementNode "div".toList [⟨[], "class".toList, "workshopItemTitle".toList⟩]
      [.mk .TextNode ("Map ".toList ++ n) [] []]]

/-- The detail page served for a body: its main content region names one map
folder, `mapA` for a body ending in `1`, `mapB` for `2`, `mapC` otherwise. -/
def scenarioCPage (body : Str) : Node :=
  .mk .DocumentNode [] []
    [.mk .ElementNode "html".toList []
      [.mk .ElementNode "body".toList []
        [.mk .ElementNode "div".toList [⟨[], "id".toList, "highlightContent".toList⟩]
          [.mk .TextNode
            ("Map Folder: map".toList ++
              [if body.getLast? = some '1' then 'A' else if body.getLast? = some '2' then 'B'
               else 'C']) [] []]]]]

/-- A world where the body of a page is its URL, parsed into the page above, and
a region is rendered as a `div` around the text of its first child. -/
def scenarioCWorld : World where
  httpGet := fun url => some url
  htmlParse := fun body => some (scenarioCPage body)
  htmlRender := fun n =>
    match n with
    | some (.mk _ _ _ (first :: _)) => .text ("<div>".toList ++ first.Data ++ "<br/></div>".toList)
    | _ => .err

/-- The three items of scenario C. -/
def scenarioCItems : List Node :=
  [scenarioCItem "1".toList, scenarioCItem "2".toList, scenarioCItem "3".toList]

/-- The state after scanning the three items of scenario C. -/
def scenarioCState : ScanState :=
  { workshopIds := ["1".toList, "2".toList, "3".toList], modIds := [],
    mapIds := ["mapA".toList, "mapB".toList, "mapC".toList], reservedIndexes := [] }

/-- A collection item whose id attribute `shared_file_123` holds the separator
twice. -/
def twoSeparatorItem : Node :=
  .mk .ElementNode "div".toList
    [⟨[], "id".toList, "shared_file_123".toList⟩,
     ⟨[], "class".toList, "collectionItem".toList⟩]
    [.mk .ElementNode "div".toList [⟨[], "class".toList, "workshopItemTitle".toList⟩]
      [.mk .TextNode "Two Mods".toList [] []]]

/-- The extraction in the words of the specification: the values are scanned
in the suffix of `rawText` that starts at the offset `k` at which the first
listed variant that occurs in the lowercase text first occurs. -/
def stripParseSuffix (rawText : Str) (variants : List Str) : Except Fault (List Str) :=
  let lowerText := ToLower rawText
  let k := Index lowerText (findVariant lowerText variants)
  let s := StripHTMLTags (rawText.drop k.toNat)
  parseValues s (findVariant (ToLower s) variants)

/-! ## The page of the ordering property -/

/-- A non-empty string of ASCII digits. -/
def digitString (v : Str) : Prop := v ≠ [] ∧ ∀ c ∈ v, c.isDigit = true

instance (v : Str) : Decidable (digitString v) := by
  unfold digitString
  infer_instance

/-- One labelled value of the page: `Mod ID: `, the value, `<br/>`. -/
def modIdBlock (v : Str) : Str := "Mod ID: ".toList ++ v ++ "<br/>".toList

/-- The page `<div>Mod ID: v1<br/>...Mod ID: vn<br/></div>`. -/
def modIdPage (vs : List Str) : Str :=
  "<div>".toList ++ (vs.map modIdBlock).flatten ++ "</div>".toList

/-! ## A collection without items -/

/-- A collection page with a title and no collection item. -/
def emptyCollectionPage : Node :=
  .mk .DocumentNode [] []
    [.mk .ElementNode "html".toList []
      [.mk .ElementNode "body".toList []
        [.mk .ElementNode "div".toList [⟨[], "class".toList, "workshopItemTitle".toList⟩]
          [.mk .TextNode "Empty collection".toList [] []]]]]

/-- A world that serves this page for every URL. -/
def emptyCollectionWorld : World where
  httpGet := fun _ => some "<html>".toList
  htmlParse := fun _ => some emptyCollectionPage
  htmlRender := fun _ => .err

/-- The case table of package `unicode` on Latin-1, the characters up to
U+00FF: `A`..`Z` and `À`..`Þ` without `×` have their lower-case character 32
places on; characters above U+00FF are left as they are here. -/
def latin1ToLower (c : Char) : Char :=
  if (65 ≤ c.toNat ∧ c.toNat ≤ 90) ∨ (192 ≤ c.toNat ∧ c.toNat ≤ 222 ∧ c.toNat ≠ 215) then
    Char.ofNat (c.toNat + 32)
  else c

/-! ## Theorems: the tree locator -/

theorem getAttributeLoop_eq (tag : Str) (attrs : List Attribute) :
    getAttributeLoop tag attrs
      = match attrs.find? fun a => decide (a.Key = tag) with
        | some a => (a.Val, true)
        | none => ([], false) := by
  induction attrs with
  | nil => rfl
  | cons a rest ih =>
    by_cases h : a.Key = tag
    · simp [getAttributeLoop, List.find?_cons, h]
    · simp [getAttributeLoop, List.find?_cons, h, ih]

theorem hasAttr_iff (n : Node) (value attr : Str) :
    hasAttr n value attr = true ↔ matchesAttr value attr n := by
  unfold hasAttr matchesAttr getAttribute
  rw [getAttributeLoop_eq]
  by_cases ht : n.type = NodeType.ElementNode
  · cases hf : n.Attr.find? fun a => decide (a.Key = attr) <;> simp [ht]
  · simp [ht]

mutual
theorem doTraverseNode_eq (n : Node) (data : List Node) (id attr : Str) :
    doTraverseNode n data id attr
      = (data ++ n.descendants.filter (fun m => hasAttr m id attr), none) := by
  cases n with
  | mk t d a cs =>
    simp only [doTraverseNode, Node.descendants]
    exact doTraverseChildren_eq cs data id attr
theorem doTraverseChildren_eq (cs : List Node) (data : List Node) (id attr : Str) :
    doTraverseChildren cs data id attr
      = (data ++ (preorder cs).filter (fun m => hasAttr m id attr), none) := by
  cases cs with
  | nil => simp [doTraverseChildren, preorder]
  | cons c cs =>
    simp only [doTraverseChildren, preorder]
    rw [doTraverseNode_eq c]
    simp only []
    rw [doTraverseChildren_eq cs]
    by_cases h : hasAttr c id attr <;> simp [h, List.filter_cons]
end

mutual
theorem size_lt_of_mem_descendants (n m : Node) (h : m ∈ n.descendants) : m.size < n.size := by
  cases n with
  | mk t d a cs =>
    simp only [Node.descendants] at h
    have := size_le_of_mem_preorder cs m h
    simp only [Node.size]
    omega
theorem size_le_of_mem_preorder (cs : List Node) (m : Node) (h : m ∈ preorder cs) :
    m.size ≤ forestSize cs := by
  cases cs with
  | nil => simp [preorder] at h
  | cons c cs =>
    simp only [preorder, List.mem_cons, List.mem_append] at h
    simp only [forestSize]
    rcases h with h | h | h
    · subst h; omega
    · have := size_lt_of_mem_descendants c m h
      omega
    · have := size_le_of_mem_preorder cs m h
      omega
end

theorem not_mem_descendants_self (n : Node) : n ∉ n.descendants := fun h =>
  Nat.lt_irrefl _ (size_lt_of_mem_descendants n n h)

mutual
theorem traverse_eq_find (n : Node) (id attr : Str) :
    traverse n id attr = (n :: n.descendants).find? (fun m => hasAttr m id attr) := by
  cases n with
  | mk t d a cs =>
    simp only [traverse, Node.descendants, List.find?_cons]
    by_cases h : hasAttr (.mk t d a cs) id attr
    · simp [h]
    · simp only [h, Bool.false_eq_true, if_false]
      exact traverseChildren_eq_find cs id attr
theorem traverseChildren_eq_find (cs : List Node) (id attr : Str) :
    traverseChildren cs id attr = (preorder cs).find? (fun m => hasAttr m id attr) := by
  cases cs with
  | nil => simp [traverseChildren, preorder]
  | cons c cs =>
    simp only [traverseChildren, preorder]
    rw [traverse_eq_find c, traverseChildren_eq_find cs]
    rw [← List.cons_append, List.find?_append]
    cases (c :: c.descendants).find? (fun m => hasAttr m id attr) <;> simp
end

theorem hasAttr_eq_matchesAttr (value attr : Str) :
    (fun n => hasAttr n value attr) = fun n => decide (matchesAttr value attr n) := by
  funext n
  by_cases h : matchesAttr value attr n
  · simp [h, (hasAttr_iff n value attr).2 h]
  · have : hasAttr n value attr = false := by
      cases hh : hasAttr n value attr
      · rfl
      · exact absurd ((hasAttr_iff n value attr).1 hh) h
    simp [h, this]

/-- C6: `doTraverse(root, data, value, attr)` leaves in `data` its prior contents
followed by exactly the proper descendants of `root` that are element nodes
whose first attribute with key `attr` has the value `value`, each once, in
pre-order document order, matches nested inside a match included; `root` is not
among the nodes considered, so it is never appended. -/
theorem doTraverse_collects_matching_descendants (root : Node) (data : List Node)
    (value attr : Str) :
    doTraverse root data value attr
        = data ++ root.descendants.filter (fun n => decide (matchesAttr value attr n))
      ∧ root ∉ root.descendants := by
  refine ⟨?_, not_mem_descendants_self root⟩
  rw [← hasAttr_eq_matchesAttr]
  simp [doTraverse, doTraverseNode_eq]

/-- C7: `getFirstElementByAttr(root, value, attr)` is total on trees; it returns
the first node, in pre-order of the subtree of `root` with `root` first, that is
an element node whose attribute `attr` equals `value`, and it returns none
exactly when no node of that subtree is such a node. -/
theorem getFirstElementByAttr_first_preorder_match (root : Node) (value attr : Str) :
    getFirstElementByAttr root value attr
        = (root :: root.descendants).find? (fun n => decide (matchesAttr value attr n))
      ∧ (getFirstElementByAttr root value attr = none
          ↔ ∀ n ∈ root :: root.descendants, ¬ matchesAttr value attr n) := by
  have h : getFirstElementByAttr root value attr
      = (root :: root.descendants).find? (fun n => decide (matchesAttr value attr n)) := by
    rw [← hasAttr_eq_matchesAttr]
    exact traverse_eq_find root value attr
  refine ⟨h, ?_⟩
  rw [h, List.find?_eq_none]
  simp

/-! ## Theorems: the output formatter -/

theorem foldl_join_append (sep a b : Str) (es : List Str) :
    es.foldl (fun b s => b ++ sep ++ s) (a ++ b) = a ++ es.foldl (fun b s => b ++ sep ++ s) b := by
  induction es generalizing b with
  | nil => rfl
  | cons e es ih =>
    simp only [List.foldl_cons]
    rw [← ih]
    simp [List.append_assoc]

theorem Join_eq_intercalate (elems : List Str) (sep : Str) :
    Join elems sep = sep.intercalate elems := by
  cases elems with
  | nil => rfl
  | cons e es =>
    induction es generalizing e with
    | nil => simp [Join, List.intercalate, List.intersperse]
    | cons e2 es ih =>
      have h2 := ih e2
      have : Join (e :: e2 :: es) sep = e ++ sep ++ Join (e2 :: es) sep := by
        cases es with
        | nil => simp [Join]
        | cons e3 es =>
          have h := foldl_join_append sep (e ++ sep) (e2 ++ sep ++ e3) es
          simpa [Join, List.append_assoc] using h
      rw [this, h2]
      simp [List.intercalate, List.intersperse, List.append_assoc]


theorem takeWhile_line (a r : Str) (ha : ∀ c ∈ a, decide (c ≠ '\n') = true) :
    (a ++ '\n' :: r).takeWhile (fun c => decide (c ≠ '\n')) = a := by
  rw [List.takeWhile_append_of_pos ha, List.takeWhile_cons_of_neg (by simp)]
  simp

theorem dropWhile_line (a r : Str) (ha : ∀ c ∈ a, decide (c ≠ '\n') = true) :
    (a ++ '\n' :: r).dropWhile (fun c => decide (c ≠ '\n')) = '\n' :: r := by
  rw [List.dropWhile_append_of_pos ha, List.dropWhile_cons_of_neg (by simp)]

theorem drop_label (label body : Str) (n : Nat) (h : label.length = n) :
    (label ++ body).drop n = body := List.drop_left' h

theorem intercalate_cons_cons (sep e e2 : Str) (es : List Str) :
    sep.intercalate (e :: e2 :: es) = e ++ sep ++ sep.intercalate (e2 :: es) := by
  simp [List.intercalate, List.intersperse, List.append_assoc]

theorem intercalate_concat_nil (sep e : Str) (es : List Str) :
    sep.intercalate ((e :: es) ++ [[]]) = sep.intercalate (e :: es) ++ sep := by
  induction es generalizing e with
  | nil => simp [List.intercalate, List.intersperse]
  | cons e2 es ih =>
    have h := ih e2
    rw [List.cons_append, List.cons_append] at *
    rw [intercalate_cons_cons, intercalate_cons_cons, h]
    simp [List.append_assoc]

theorem not_mem_intercalate (c : Char) (sep : Str) (ls : List Str)
    (hsep : c ∉ sep) (hls : ∀ l ∈ ls, c ∉ l) : c ∉ sep.intercalate ls := by
  cases ls with
  | nil => simp [List.intercalate]
  | cons e es =>
    induction es generalizing e with
    | nil => simpa [List.intercalate] using hls
    | cons e2 es ih =>
      rw [intercalate_cons_cons]
      have h1 : c ∉ e := hls e (by simp)
      have h2 := ih e2 (fun l hl => hls l (List.mem_cons_of_mem _ hl))
      simp [h1, h2, hsep]

theorem parseIds_Join (ids : List Str) (h : ∀ s ∈ ids, plainId s) (hne : ids ≠ [[]]) :
    parseIds (Join ids [';'] ++ [';']) = ids := by
  rw [Join_eq_intercalate]
  cases ids with
  | nil => decide
  | cons e es =>
    rw [← intercalate_concat_nil]
    unfold parseIds
    rw [List.splitOn_intercalate]
    · have hd : (e :: (es ++ [[]])).dropLast = e :: es := by
        rw [← List.cons_append, List.dropLast_concat]
      rw [List.cons_append, hd, if_neg hne]
    · intro l hl
      simp only [List.mem_append, List.mem_singleton] at hl
      rcases hl with hl | rfl
      · exact (h l hl).1
      · simp
    · simp


/-- C8: `createConfigOutput(w, m, x)` is total and equals `WorkshopItems=`, the
ids of `w` with `;` between them, `;`, a newline, `Mods=`, the ids of `m` with
`;` between them, `;`, a newline, `Map=`, `x` and `;`; for no ids and an empty
map id it is `WorkshopItems=;`, `Mods=;`, `Map=;`, and for two workshop ids, two
mod ids and an empty map id it is `WorkshopItems=id1;id2;`, `Mods=mod1;mod2;`,
`Map=;`. -/
theorem createConfigOutput_format (w m : List Str) (x : Str) :
    createConfigOutput w m x
        = "WorkshopItems=".toList ++ ";".toList.intercalate w ++ ";\nMods=".toList
            ++ ";".toList.intercalate m ++ ";\nMap=".toList ++ x ++ ";".toList
      ∧ createConfigOutput [] [] [] = "WorkshopItems=;\nMods=;\nMap=;".toList
      ∧ ∀ id1 id2 mod1 mod2 : Str,
          createConfigOutput [id1, id2] [mod1, mod2] []
            = "WorkshopItems=".toList ++ id1 ++ ";".toList ++ id2 ++ ";\nMods=".toList
                ++ mod1 ++ ";".toList ++ mod2 ++ ";\nMap=;".toList := by
  refine ⟨?_, by decide, ?_⟩
  · simp only [createConfigOutput, Join_eq_intercalate]
  · intro id1 id2 mod1 mod2
    simp [createConfigOutput, Join, List.append_assoc]

/-- C9, as stated, fails: no workshop id and one empty workshop id are formatted
alike, so no function reads the three components back from every output; an id
holding `;` is formatted like two ids, and an id holding a newline can pass for
the start of the next line. -/
theorem createConfigOutput_not_lossless :
    createConfigOutput [] [] [] = createConfigOutput [[]] [] []
      ∧ createConfigOutput ["a;b".toList] [] [] = createConfigOutput ["a".toList, "b".toList] [] []
      ∧ createConfigOutput ["a".toList, "\nMods=b".toList] [] []
          = createConfigOutput ["a".toList] ["b".toList, "\nMods=".toList] []
      ∧ ¬ ∃ p : Str → List Str × List Str × Str,
          ∀ (w m : List Str) (x : Str), p (createConfigOutput w m x) = (w, m, x) := by
  refine ⟨by decide, by decide, by decide, ?_⟩
  rintro ⟨p, hp⟩
  have h1 := hp [] [] []
  have h2 := hp [[]] [] []
  have h : createConfigOutput [] [] [] = createConfigOutput [[]] [] [] := by decide
  rw [h, h2] at h1
  exact absurd h1 (by decide)

/-- C9, amended: for a workshop-id list and a mod-id list whose ids contain
neither `;` nor a newline, neither list being the one-element list of the empty
id, and for every map id, reading the formatted configuration back with
`parseConfig` recovers the two id lists and the map id exactly. -/
theorem parseConfig_createConfigOutput (w m : List Str) (x : Str)
    (hw : ∀ s ∈ w, plainId s) (hm : ∀ s ∈ m, plainId s)
    (hw1 : w ≠ [[]]) (hm1 : m ≠ [[]]) :
    parseConfig (createConfigOutput w m x) = (w, m, x) := by
  have hnl : ∀ ids : List Str, (∀ s ∈ ids, plainId s) → ∀ (label : Str), '\n' ∉ label →
      ∀ c ∈ label ++ Join ids [';'] ++ [';'], (decide (c ≠ '\n')) = true := by
    intro ids hids label hl c hc
    have hj : '\n' ∉ Join ids [';'] := by
      rw [Join_eq_intercalate]
      exact not_mem_intercalate _ _ _ (by decide) (fun l h => (hids l h).2)
    simp only [List.mem_append, List.mem_singleton] at hc
    simp only [ne_eq, decide_not, Bool.not_eq_true', decide_eq_false_iff_not]
    rintro rfl
    rcases hc with (hc | hc) | hc
    · exact hl hc
    · exact hj hc
    · exact absurd hc (by decide)
  have hout : createConfigOutput w m x
      = ("WorkshopItems=".toList ++ Join w [';'] ++ [';']) ++ '\n' ::
          (("Mods=".toList ++ Join m [';'] ++ [';']) ++ '\n' :: ("Map=".toList ++ x ++ [';'])) := by
    simp [createConfigOutput, List.append_assoc]
  have h1 := hnl w hw "WorkshopItems=".toList (by decide)
  have h2 := hnl m hm "Mods=".toList (by decide)
  rw [hout]
  unfold parseConfig
  simp only [takeWhile_line _ _ h1, dropWhile_line _ _ h1, List.drop_one, List.tail_cons,
    takeWhile_line _ _ h2, dropWhile_line _ _ h2]
  rw [List.append_assoc, List.append_assoc, List.append_assoc,
    drop_label "WorkshopItems=".toList _ 14 rfl, drop_label "Mods=".toList _ 5 rfl,
    drop_label "Map=".toList _ 4 rfl,
    List.dropLast_concat, parseIds_Join w hw hw1, parseIds_Join m hm hm1]

/-- Witness of C9 amended: two workshop ids, an empty mod id before a second
one, a map id holding `;`. -/
theorem parseConfig_createConfigOutput_witness :
    (∀ s ∈ ["111".toList, "222".toList], plainId s) ∧ (∀ s ∈ [[], "mod1".toList], plainId s)
      ∧ ["111".toList, "222".toList] ≠ [[]] ∧ [[], "mod1".toList] ≠ [[]]
      ∧ parseConfig (createConfigOutput ["111".toList, "222".toList] [[], "mod1".toList]
            "a;b".toList)
          = (["111".toList, "222".toList], [[], "mod1".toList], "a;b".toList) :=
  ⟨by decide, by decide, by decide, by decide,
    parseConfig_createConfigOutput ["111".toList, "222".toList] [[], "mod1".toList] "a;b".toList
      (by decide) (by decide) (by decide) (by decide)⟩

/-! ## Theorems: the disambiguator -/

theorem index_ofNat {α : Type} (xs : List α) (k : Nat) (h : k < xs.length) :
    index xs (Int.ofNat k) = .ok (xs.get ⟨k, h⟩) := by
  unfold index
  have : ¬ (Int.ofNat k < 0) := by simp
  simp [this, List.getElem?_eq_getElem h]

/-- The commit of an item's results (the end of the loop body of `main`
with `reservedOrPlaceholder`) never fails and, on every prior state: with no mod
candidate it leaves `modIds` and the placeholders as they were; with exactly
one candidate it appends that candidate to `modIds` and leaves the placeholders
as they were; with two or more candidates it appends the first candidate to
`modIds` and appends exactly one placeholder, whose options are the full
candidate list and whose reserved index is the position just filled. -/
theorem commitItem_eq (st : ScanState) (workshopId title : Str) (mpId : List Str) :
    commitItem st workshopId title [] mpId
        = .ok { workshopIds := st.workshopIds ++ [workshopId], modIds := st.modIds,
                mapIds := if mpId.length > 0 then st.mapIds ++ mpId else st.mapIds,
                reservedIndexes := st.reservedIndexes }
      ∧ (∀ c : Str, commitItem st workshopId title [c] mpId
        = .ok { workshopIds := st.workshopIds ++ [workshopId], modIds := st.modIds ++ [c],
                mapIds := if mpId.length > 0 then st.mapIds ++ mpId else st.mapIds,
                reservedIndexes := st.reservedIndexes })
      ∧ (∀ (c0 c1 : Str) (more : List Str), commitItem st workshopId title (c0 :: c1 :: more) mpId
        = .ok { workshopIds := st.workshopIds ++ [workshopId], modIds := st.modIds ++ [c0],
                mapIds := if mpId.length > 0 then st.mapIds ++ mpId else st.mapIds,
                reservedIndexes := st.reservedIndexes ++
                  [{ placeholderType := "mod".toList, options := c0 :: c1 :: more,
                     reservedIndex := st.modIds.length, itemTitle := title,
                     itemId := workshopId }] }) := by
  refine ⟨?_, ?_, ?_⟩
  · simp [commitItem]
  · intro c
    simp [commitItem, reservedOrPlaceholder, index, bind, Except.bind]
  · intro c0 c1 more
    simp [commitItem, reservedOrPlaceholder, index, bind, Except.bind]


/-- C2: the commit of an item's results (the end of the loop body of `main`
together with `reservedOrPlaceholder`) never fails and, on every prior state:
with no mod candidate it leaves `modIds` and the placeholders unchanged; with
exactly one candidate it appends that candidate to `modIds` and leaves the
placeholders unchanged; with two or more candidates it appends `candidates[0]`
to `modIds` and appends exactly one placeholder, whose options are the full
candidate list. -/
theorem commitItem_mod_policy (st : ScanState) (workshopId title : Str) (mpId : List Str) :
    (∃ st', commitItem st workshopId title [] mpId = .ok st'
        ∧ st'.modIds = st.modIds ∧ st'.reservedIndexes = st.reservedIndexes)
      ∧ (∀ c : Str, ∃ st', commitItem st workshopId title [c] mpId = .ok st'
        ∧ st'.modIds = st.modIds ++ [c] ∧ st'.reservedIndexes = st.reservedIndexes)
      ∧ (∀ (c0 c1 : Str) (more : List Str),
          ∃ st' p, commitItem st workshopId title (c0 :: c1 :: more) mpId = .ok st'
            ∧ st'.modIds = st.modIds ++ [c0]
            ∧ st'.reservedIndexes = st.reservedIndexes ++ [p]
            ∧ p.options = c0 :: c1 :: more
            ∧ p.reservedIndex = st.modIds.length) := by
  have h := commitItem_eq st workshopId title mpId
  refine ⟨⟨_, h.1, rfl, rfl⟩, fun c => ⟨_, h.2.1 c, rfl, rfl⟩, fun c0 c1 more => ?_⟩
  exact ⟨_, _, h.2.2 c0 c1 more, rfl, rfl, rfl, rfl⟩

theorem commitItem_wellReserved (st st' : ScanState) (workshopId title : Str)
    (modId mpId : List Str) (h : commitItem st workshopId title modId mpId = .ok st')
    (hst : st.wellReserved) : st'.wellReserved := by
  obtain ⟨hp, hb⟩ := hst
  have pol := commitItem_eq st workshopId title mpId
  match modId, h with
  | [], h =>
    rw [pol.1] at h
    cases h
    exact ⟨hp, hb⟩
  | [c], h =>
    rw [pol.2.1 c] at h
    cases h
    refine ⟨hp, fun p hpm => ?_⟩
    have := hb p hpm
    simp only [List.length_append, List.length_singleton]
    omega
  | c0 :: c1 :: more, h =>
    rw [pol.2.2 c0 c1 more] at h
    cases h
    constructor
    · simp only [List.map_append, List.map_cons, List.map_nil, List.pairwise_append,
        List.pairwise_cons, List.Pairwise.nil, List.mem_map, List.mem_singleton]
      refine ⟨hp, ⟨by simp, trivial⟩, ?_⟩
      rintro a ⟨p, hpm, rfl⟩ b rfl
      exact hb p hpm
    · intro p hpm
      simp only [List.mem_append, List.mem_singleton] at hpm
      simp only [List.length_append, List.length_singleton]
      rcases hpm with hpm | rfl
      · have := hb p hpm
        omega
      · simp

theorem scanItem_commits (world : World) (st st' : ScanState) (item : Node)
    (h : scanItem world st item = .ok st') :
    ∃ workshopId title modId mpId, commitItem st workshopId title modId mpId = .ok st' := by
  unfold scanItem at h
  simp only [bind, Except.bind] at h
  repeat' split at h
  all_goals first
    | cases h
    | exact ⟨_, _, _, _, h⟩

theorem scanLoop_wellReserved (world : World) (items : List Node) (st st' : ScanState)
    (h : scanLoop world st items = .ok st') (hst : st.wellReserved) : st'.wellReserved := by
  induction items generalizing st with
  | nil =>
    simp only [scanLoop] at h
    cases h
    exact hst
  | cons item items ih =>
    simp only [scanLoop, bind, Except.bind] at h
    split at h
    · cases h
    · rename_i st1 h1
      obtain ⟨w, t, mo, mp, hc⟩ := scanItem_commits world st st1 item h1
      exact ih st1 h (commitItem_wellReserved st st1 w t mo mp hc hst)

theorem resolveMods_spec (ps : List reservedPlaceholder) (sel : List Nat) (modIds : List Str)
    (unread : Answers)
    (hsel : List.Forall₂ (fun p k => k < p.options.length) ps sel)
    (hnd : (ps.map reservedPlaceholder.reservedIndex).Nodup)
    (hb : ∀ p ∈ ps, p.reservedIndex < modIds.length) :
    ∃ modIds', resolveMods ps modIds (sel.map (fun k : Nat => some (Int.ofNat k)) ++ unread)
          = .ok (modIds', unread)
      ∧ modIds'.length = modIds.length
      ∧ List.Forall₂ (fun p k => modIds'.get? p.reservedIndex = p.options.get? k) ps sel
      ∧ ∀ j, (∀ p ∈ ps, p.reservedIndex ≠ j) → modIds'.get? j = modIds.get? j := by
  induction hsel generalizing modIds with
  | nil => exact ⟨modIds, rfl, rfl, List.Forall₂.nil, fun _ _ => rfl⟩
  | @cons p k ps sel hk _ ih =>
    have hpb : p.reservedIndex < modIds.length := hb p (by simp)
    simp only [List.map_cons, List.nodup_cons, List.mem_map, not_exists, not_and] at hnd
    obtain ⟨hfresh, hnd'⟩ := hnd
    obtain ⟨modIds', hres, hlen, hall, hframe⟩ :=
      ih (modIds.set p.reservedIndex (p.options.get ⟨k, hk⟩)) hnd'
        (fun q hq => by simpa using hb q (List.mem_cons_of_mem _ hq))
    refine ⟨modIds', ?_, by simpa using hlen, ?_, ?_⟩
    · simp only [List.map_cons, List.cons_append, resolveMods, scanln, index_ofNat _ k hk,
        setIndex, hpb, if_true, bind, Except.bind]
      exact hres
    · refine List.Forall₂.cons ?_ hall
      rw [hframe p.reservedIndex (fun q hq hqe => hfresh q hq hqe)]
      simp [List.get?_eq_get hk, hpb]
    · intro j hj
      have hne : p.reservedIndex ≠ j := hj p (by simp)
      rw [hframe j (fun q hq => hj q (List.mem_cons_of_mem _ hq))]
      simp [List.getElem?_set_ne hne]

/-- C3: in every state the scan of any sequence of items produces, for every
in-range selection `k` for each placeholder `p`, the resolution loop reads
exactly these selections and ends with `modIds[p.reservedIndex] = p.options[k]`
for every placeholder, every position of `modIds` that is no placeholder's
reserved index unchanged, and the length of `modIds` unchanged. -/
theorem resolution_overwrites_reserved_slots (world : World) (items : List Node)
    (st : ScanState) (sel : List Nat) (unread : Answers)
    (hscan : scanLoop world ScanState.init items = .ok st)
    (hsel : List.Forall₂ (fun p k => k < p.options.length) st.reservedIndexes sel) :
    ∃ modIds', resolveMods st.reservedIndexes st.modIds
            (sel.map (fun k : Nat => some (Int.ofNat k)) ++ unread) = .ok (modIds', unread)
      ∧ modIds'.length = st.modIds.length
      ∧ List.Forall₂ (fun p k => modIds'.get? p.reservedIndex = p.options.get? k)
          st.reservedIndexes sel
      ∧ ∀ j, (∀ p ∈ st.reservedIndexes, p.reservedIndex ≠ j) →
          modIds'.get? j = st.modIds.get? j := by
  have hw : st.wellReserved :=
    scanLoop_wellReserved world items ScanState.init st hscan
      ⟨List.Pairwise.nil, fun p hp => by simp [ScanState.init] at hp⟩
  exact resolveMods_spec st.reservedIndexes sel st.modIds unread hsel
    (hw.1.imp (fun hlt => Nat.ne_of_lt hlt)) hw.2

/-- Witness of C3: scenario B, one item with candidates `111`, `222`; selection
`1` leaves `222` at the item's position. -/
theorem resolution_overwrites_reserved_slots_witness :
    scanLoop scenarioBWorld ScanState.init [scenarioBItem] = .ok scenarioBState
      ∧ resolveMods scenarioBState.reservedIndexes scenarioBState.modIds [some 1]
          = .ok (["222".toList], [])
      ∧ ∃ modIds', resolveMods scenarioBState.reservedIndexes scenarioBState.modIds
              ([1].map (fun k : Nat => some (Int.ofNat k)) ++ []) = .ok (modIds', [])
          ∧ modIds'.length = scenarioBState.modIds.length
          ∧ List.Forall₂ (fun p k => modIds'.get? p.reservedIndex = p.options.get? k)
              scenarioBState.reservedIndexes [1]
          ∧ ∀ j, (∀ p ∈ scenarioBState.reservedIndexes, p.reservedIndex ≠ j) →
              modIds'.get? j = scenarioBState.modIds.get? j :=
  ⟨by rfl, by rfl,
    resolution_overwrites_reserved_slots scenarioBWorld [scenarioBItem] scenarioBState [1] []
      (by rfl) (List.Forall₂.cons (by decide) List.Forall₂.nil)⟩

/-! ## Theorems: extraction, failed pages and the map selection -/

theorem findVariant_nil (variants : List Str) : findVariant [] variants = [] := by
  induction variants with
  | nil => rfl
  | cons v vs ih =>
    cases v with
    | nil => simp [findVariant, Contains, Index, indexFrom]
    | cons c cs => simpa [findVariant, Contains, Index, indexFrom] using ih

theorem stripParse_nil (variants : List Str) : stripParse [] variants = .error .panic := by
  simp [stripParse, ToLower, findVariant_nil, Index, indexFrom, slice, Split, explode, index,
    bind, Except.bind]

theorem processModIdentifier_nil : processModIdentifier [] = .error .panic := by
  simp [processModIdentifier, stripParse_nil, bind, Except.bind]

theorem stripParse_singleton (c : Char) (variants : List Str) :
    stripParse [c] variants = .error .panic := by
  have hk : ∀ v : Str, Index [c.toLower] v = 0 ∨ Index [c.toLower] v = -1 := by
    intro v
    unfold Index
    simp only [indexFrom]
    split
    · exact Or.inl rfl
    · split
      · rename_i h1 h2
        subst h2
        simp at h1
      · exact Or.inr rfl
  simp only [stripParse, ToLower, List.map_cons, List.map_nil, bind, Except.bind]
  rcases hk (findVariant [c.toLower] variants) with h | h
  · rw [h]
    simp [slice, Split, explode, index]
  · rw [h]
    simp [slice]

/-- C4 (divergence): on the empty text and on every one-character text
`stripParse` panics, for every list of variants (no variant is found, or one is
found at offset 0; the separator `str[:0]` is empty, `strings.Split` cuts the
text into its characters and `[1]` is out of range); so
`processModIdentifier("")` panics instead of returning two empty lists. -/
theorem stripParse_panics_on_short_text (variants : List Str) (c : Char) :
    stripParse [] variants = .error .panic
      ∧ stripParse [c] variants = .error .panic
      ∧ processModIdentifier [] = .error .panic :=
  ⟨stripParse_nil variants, stripParse_singleton c variants, processModIdentifier_nil⟩

/-- C1 (divergence): the value is cut out at the first occurrence of the
captured text, and the text is split at the first repetition of what stands
before the label.  For the specification's example the result is `AbC123`; for
the label casing `Mod ID:` and the letter token `mOD` it is `Mod`, taken from
the label; for the letter token `Prefix` it is empty. -/
theorem stripParse_value_recovery_drifts :
    stripParse ("Prefix ".toList ++ "Mod ID:".toList ++ " ".toList ++ "AbC123".toList
          ++ " \n".toList) (produceVariants "mod id:".toList) = .ok ["AbC123".toList]
      ∧ ToLower "Mod ID:".toList = "mod id:".toList
      ∧ "mOD".toList.all Char.isAlphanum = true
      ∧ stripParse ("Prefix ".toList ++ "Mod ID:".toList ++ " ".toList ++ "mOD".toList
          ++ " \n".toList) (produceVariants "mod id:".toList) = .ok ["Mod".toList]
      ∧ "Prefix".toList.all Char.isAlphanum = true
      ∧ stripParse ("Prefix ".toList ++ "Mod ID:".toList ++ " ".toList ++ "Prefix".toList
          ++ " \n".toList) (produceVariants "mod id:".toList) = .ok [] :=
  ⟨by rfl, by rfl, by rfl, by rfl, by rfl, by rfl⟩

theorem getContent_error (n : Option Node) (f : Fault) (h : getContent n = .error f) :
    f = .panic := by
  unfold getContent at h
  split at h
  · cases h; rfl
  · split at h
    · cases h; rfl
    · cases h

theorem index_error {α : Type} (xs : List α) (i : Int) (f : Fault)
    (h : index xs i = .error f) : f = .panic := by
  unfold index at h
  split at h
  · cases h; rfl
  · split at h
    · cases h
    · cases h; rfl

/-- C5 (divergence): for every item whose detail page has no element with id
`highlightContent`, rendering the nil node giving no text (an error, a panic or
the empty text), the scan step panics: the workshop id is not committed and the
scan loop stops there instead of going on with the next item. -/
theorem scanItem_panics_without_content_region (world : World) (st : ScanState) (item : Node)
    (hmiss : ∀ workshopId page,
      index (Split (getAttribute item "id".toList).1 "_".toList) 1 = .ok workshopId →
      parseHtmlContent world (loadUrlContent world
        ("https://steamcommunity.com/sharedfiles/filedetails/?id=".toList ++ workshopId))
          = some page →
      getFirstElementByAttr page "highlightContent".toList "id".toList = none)
    (hrender : ∀ s, world.htmlRender none = .text s → s = []) :
    scanItem world st item = .error .panic
      ∧ ∀ items, scanLoop world st (item :: items) = .error .panic := by
  have h : scanItem world st item = .error .panic := by
    unfold scanItem
    simp only [bind, Except.bind]
    split
    · rename_i f h
      rw [getContent_error _ f h]
    · split
      · rename_i f h
        rw [index_error _ _ f h]
      · rename_i workshopId hid
        cases hp : parseHtmlContent world (loadUrlContent world
            ("https://steamcommunity.com/sharedfiles/filedetails/?id=".toList ++ workshopId))
          with
        | none => rfl
        | some page =>
          simp only [hmiss workshopId page hid hp, renderNode]
          cases hr : world.htmlRender none with
          | text s =>
            rw [hrender s hr]
            simp [processModIdentifier_nil]
          | err => simp [processModIdentifier_nil]
          | panic => rfl
  exact ⟨h, fun items => by simp [scanLoop, h, bind, Except.bind]⟩

/-- Witness of C5: the item of scenario B in a world where every fetch fails. -/
theorem scanItem_panics_without_content_region_witness :
    scanItem failedFetchWorld ScanState.init scenarioBItem = .error .panic
      ∧ ∀ items, scanLoop failedFetchWorld ScanState.init (scenarioBItem :: items)
          = .error .panic :=
  scanItem_panics_without_content_region failedFetchWorld ScanState.init scenarioBItem
    (fun _ page _ h => by cases h; rfl) (fun s h => by cases h)

/-- C10 (divergence): with an empty map pool and no placeholder, the run after
the scan still reads one answer for the map: answer `0` is consumed and gives a
configuration with an empty map id, while no answer, an answer that is not an
integer, or any other index panics. -/
theorem resolve_reads_map_selection_on_empty_pool (workshopIds modIds : List Str)
    (unread : Answers) :
    resolve ⟨workshopIds, modIds, [], []⟩ (some 0 :: unread)
        = .ok (createConfigOutput workshopIds modIds [], unread)
      ∧ resolve ⟨workshopIds, modIds, [], []⟩ (none :: unread) = .error .panic
      ∧ resolve ⟨workshopIds, modIds, [], []⟩ [] = .error .panic
      ∧ resolve ⟨workshopIds, modIds, [], []⟩ (some 1 :: unread) = .error .panic :=
  ⟨by rfl, by rfl, by rfl, by rfl⟩

/-! ## Theorems: agreement of the locators, the variants -/

theorem head?_filter_eq_find? {α : Type} (p : α → Bool) (l : List α) :
    (l.filter p).head? = l.find? p := by
  induction l with
  | nil => rfl
  | cons a l ih =>
    by_cases h : p a
    · simp [List.filter_cons, List.find?_cons, h]
    · simp [List.filter_cons, List.find?_cons, h, ih]

/-- C20: the two locators agree: when `root` satisfies `hasAttr`,
`getFirstElementByAttr` returns `root`; otherwise it returns the first node of
the list `doTraverse` collects from the empty slice, and none exactly when that
list is empty. -/
theorem getFirstElementByAttr_agrees_with_doTraverse (root : Node) (value attr : Str) :
    getFirstElementByAttr root value attr
        = (if hasAttr root value attr then some root
           else (doTraverse root [] value attr).head?)
      ∧ ((doTraverse root [] value attr).head? = none ↔ doTraverse root [] value attr = []) := by
  refine ⟨?_, List.head?_eq_none_iff⟩
  unfold getFirstElementByAttr doTraverse
  rw [traverse_eq_find, doTraverseNode_eq, List.find?_cons]
  by_cases h : hasAttr root value attr
  · simp [h]
  · simp [h, head?_filter_eq_find?]

theorem toLower_toLower (c : Char) : c.toLower.toLower = c.toLower := by
  unfold Char.toLower
  by_cases h : c.toNat ≥ 65 ∧ c.toNat ≤ 90
  · simp only [h, and_self, if_true]
    obtain ⟨h1, h2⟩ := h
    generalize c.toNat = n at h1 h2
    interval_cases n <;> rfl
  · simp only [h, if_false]

theorem ToLower_idem (s : Str) : ToLower (ToLower s) = ToLower s := by
  simp [ToLower, toLower_toLower]

theorem isPrefixOf_append_self (sub post : Str) : sub.isPrefixOf (sub ++ post) = true := by
  induction sub with
  | nil => simp [List.isPrefixOf]
  | cons a sub ih => simp [List.isPrefixOf, ih]

theorem indexFrom_of_isPrefixOf (sub s : Str) (i : Nat) (h : sub.isPrefixOf s = true) :
    indexFrom sub s i = (i : Int) := by
  cases s with
  | nil =>
    cases sub with
    | nil => simp [indexFrom]
    | cons a sub => simp [List.isPrefixOf] at h
  | cons c cs => simp [indexFrom, h]

theorem indexFrom_skip (x : Char) (sub pre s : Str) (i : Nat) (h : x ∉ pre) :
    indexFrom (x :: sub) (pre ++ s) i = indexFrom (x :: sub) s (i + pre.length) := by
  induction pre generalizing i with
  | nil => rfl
  | cons c pre ih =>
    have hc : ¬ x = c := fun e => h (by simp [e])
    have hp : x ∉ pre := fun e => h (List.mem_cons_of_mem _ e)
    have hnp : (x :: sub).isPrefixOf (c :: (pre ++ s)) = false := by
      simp [List.isPrefixOf, hc]
    rw [List.cons_append, indexFrom, hnp, ih (i + 1) hp, List.length_cons,
      show i + 1 + pre.length = i + (pre.length + 1) from by omega]
    simp

theorem Index_not_mem (x : Char) (sub s : Str) (h : x ∉ s) : Index s (x :: sub) = -1 := by
  have := indexFrom_skip x sub s [] 0 h
  rw [List.append_nil] at this
  rw [Index, this]
  simp [indexFrom]

theorem Index_skip_to (x : Char) (sub pre post : Str) (h : x ∉ pre) :
    Index (pre ++ (x :: sub) ++ post) (x :: sub) = (pre.length : Int) := by
  rw [Index, List.append_assoc, indexFrom_skip x sub pre _ 0 h,
    indexFrom_of_isPrefixOf _ _ _ (isPrefixOf_append_self _ _)]
  simp

theorem replaceLoop_remove (c : Char) (n : Nat) (s : Str) (h : s.length ≤ n) :
    replaceLoop n s [c] [] = s.filter fun x => decide (x ≠ c) := by
  induction n generalizing s with
  | zero =>
    have : s = [] := List.length_eq_zero.mp (Nat.le_zero.mp h)
    subst this
    rfl
  | succ n ih =>
    by_cases hc : c ∈ s
    · obtain ⟨pre, post, rfl, hpre⟩ := List.eq_append_cons_of_mem hc
      have hi : Index (pre ++ c :: post) [c] = (pre.length : Int) := by
        have := Index_skip_to c [] pre post hpre
        simpa using this
      have hlen : post.length ≤ n := by
        simp only [List.length_append, List.length_cons] at h
        omega
      have hfil : pre.filter (fun x => decide (x ≠ c)) = pre := by
        rw [List.filter_eq_self]
        intro a ha
        simp only [ne_eq, decide_not, Bool.not_eq_true', decide_eq_false_iff_not]
        rintro rfl
        exact hpre ha
      have hneg : ¬ ((pre.length : Int) < 0) := by omega
      simp only [replaceLoop, hi, hneg, if_false, Int.toNat_ofNat, List.take_left,
        List.append_nil, List.length_singleton]
      have hd : (pre ++ c :: post).drop (pre.length + 1) = post := by
        rw [List.drop_append]
        rfl
      rw [hd, ih post hlen, List.filter_append, hfil]
      simp
    · have hi : Index s [c] = -1 := Index_not_mem c [] s hc
      simp only [replaceLoop, hi, show ((-1 : Int) < 0) from by omega, if_true]
      symm
      rw [List.filter_eq_self]
      intro a ha
      simp only [ne_eq, decide_not, Bool.not_eq_true', decide_eq_false_iff_not]
      rintro rfl
      exact hc ha

theorem Replace_remove (c : Char) (s : Str) :
    Replace s [c] [] = s.filter fun x => decide (x ≠ c) := by
  simp only [Replace, List.cons_ne_nil, if_false]
  exact replaceLoop_remove c s.length s (Nat.le_refl _)

theorem ToLowerBy_idem (lower : Char → Char) (s : Str)
    (h : ∀ c ∈ s, lower (lower c) = lower c) :
    ToLowerBy lower (ToLowerBy lower s) = ToLowerBy lower s := by
  induction s with
  | nil => rfl
  | cons c s ih =>
    simp only [ToLowerBy, List.map_cons, List.map_map, List.cons.injEq] at ih ⊢
    exact ⟨h c (by simp), ih (fun x hx => h x (List.mem_cons_of_mem _ hx))⟩

/-- C15: for every label and every case table `lower` of package `unicode`,
`produceVariants(label)` is the list of exactly three strings, in this order:
the lowercase label, the lowercase label with every space removed, the
lowercase label with every colon removed; its first element is the lowercase
label, and applied to that element it gives the same list whenever the table
leaves the lower-case characters of the label as they are, which the ASCII
table does for every label; for `Mod ID:` the list is `mod id:`, `modid:`,
`mod id`. -/
theorem produceVariants_three (lower : Char → Char) (label : Str) :
    produceVariantsBy lower label
        = [ToLowerBy lower label, (ToLowerBy lower label).filter (fun c => decide (c ≠ ' ')),
           (ToLowerBy lower label).filter (fun c => decide (c ≠ ':'))]
      ∧ (produceVariantsBy lower label).length = 3
      ∧ (produceVariantsBy lower label).head? = some (ToLowerBy lower label)
      ∧ ((∀ c ∈ label, lower (lower c) = lower c) →
          produceVariantsBy lower (ToLowerBy lower label) = produceVariantsBy lower label)
      ∧ produceVariantsBy Char.toLower label = produceVariants label
      ∧ (produceVariants label).head? = some (ToLower label)
      ∧ produceVariants (ToLower label) = produceVariants label
      ∧ produceVariants "Mod ID:".toList = ["mod id:".toList, "modid:".toList, "mod id".toList] := by
  refine ⟨?_, by simp [produceVariantsBy], by simp [produceVariantsBy], ?_, rfl,
    by simp [produceVariants], ?_, by rfl⟩
  · simp only [produceVariantsBy, Replace_remove]
  · intro h
    simp only [produceVariantsBy, ToLowerBy_idem lower label h]
  · simp only [produceVariants, ToLower_idem]

/-! ## Theorems: stripping markup -/

theorem mem_replaceTags (x : Char) (b : Bool) (s : Str) (h : x ∈ replaceTags b s) :
    x ∈ s ∨ x = '\n' := by
  induction s generalizing b with
  | nil => simp [replaceTags] at h
  | cons c cs ih =>
    cases b with
    | true =>
      simp only [replaceTags] at h
      split at h
      · rcases ih _ h with h' | h'
        · exact Or.inl (List.mem_cons_of_mem _ h')
        · exact Or.inr h'
      · rcases ih _ h with h' | h'
        · exact Or.inl (List.mem_cons_of_mem _ h')
        · exact Or.inr h'
    | false =>
      simp only [replaceTags] at h
      split at h
      · rcases List.mem_cons.mp h with h' | h'
        · exact Or.inr h'
        · rcases ih _ h' with h'' | h''
          · exact Or.inl (List.mem_cons_of_mem _ h'')
          · exact Or.inr h''
      · rcases List.mem_cons.mp h with h' | h'
        · exact Or.inl (by simp [h'])
        · rcases ih _ h' with h'' | h''
          · exact Or.inl (List.mem_cons_of_mem _ h'')
          · exact Or.inr h''

theorem noFragment_cons (c : Char) (s : Str) (hs : noFragment s)
    (hc : c = '<' → '>' ∉ s) : noFragment (c :: s) := by
  intro pre post h
  cases pre with
  | nil =>
    simp only [List.nil_append, List.cons.injEq] at h
    rw [← h.2]
    exact hc h.1
  | cons p pre =>
    simp only [List.cons_append, List.cons.injEq] at h
    exact hs pre post h.2

theorem noFragment_tail (c : Char) (s : Str) (h : noFragment (c :: s)) : noFragment s :=
  fun pre post e => h (c :: pre) post (by simp [e])

theorem noFragment_replaceTags (b : Bool) (s : Str) : noFragment (replaceTags b s) := by
  induction s generalizing b with
  | nil =>
    intro pre post h
    cases pre <;> simp [replaceTags] at h
  | cons c cs ih =>
    cases b with
    | true =>
      simp only [replaceTags]
      split
      · exact ih _
      · exact ih _
    | false =>
      simp only [replaceTags]
      split
      · exact noFragment_cons _ _ (ih _) (fun h => absurd h (by decide))
      · rename_i hno
        refine noFragment_cons _ _ (ih _) (fun hc hmem => ?_)
        rcases mem_replaceTags _ _ _ hmem with h' | h'
        · exact hno ⟨hc, h'⟩
        · exact absurd h' (by decide)

theorem replaceTags_of_noFragment (s : Str) (h : noFragment s) : replaceTags false s = s := by
  induction s with
  | nil => rfl
  | cons c cs ih =>
    have hno : ¬ (c = '<' ∧ '>' ∈ cs) := by
      rintro ⟨rfl, hm⟩
      exact h [] cs rfl hm
    simp only [replaceTags, hno, if_false, ih (noFragment_tail c cs h)]

theorem replaceTags_inside (body rest : Str) (h : '>' ∉ body) :
    replaceTags true (body ++ '>' :: rest) = replaceTags false rest := by
  induction body with
  | nil => simp [replaceTags]
  | cons c body ih =>
    have hc : ¬ c = '>' := fun e => h (by simp [e])
    have hb : '>' ∉ body := fun e => h (List.mem_cons_of_mem _ e)
    rw [List.cons_append, replaceTags, if_neg hc]
    exact ih hb

theorem replaceTags_text (t u : Str) (h : '<' ∉ t) :
    replaceTags false (t ++ u) = t ++ replaceTags false u := by
  induction t with
  | nil => rfl
  | cons c t ih =>
    have hc : ¬ c = '<' := fun e => h (by simp [e])
    have ht : '<' ∉ t := fun e => h (List.mem_cons_of_mem _ e)
    have hno : ¬ (c = '<' ∧ '>' ∈ t ++ u) := fun e => hc e.1
    rw [List.cons_append, replaceTags, if_neg hno, ih ht]
    rfl

theorem replaceTags_fragment (t body rest : Str) (ht : '<' ∉ t) (hb : '>' ∉ body) :
    replaceTags false (t ++ '<' :: (body ++ '>' :: rest)) = t ++ '\n' :: replaceTags false rest := by
  rw [replaceTags_text t _ ht]
  have hm : '>' ∈ body ++ '>' :: rest := by simp
  simp only [replaceTags, hm, and_self, if_true, replaceTags_inside body rest hb]

/-- C18: for every input the output of `StripHTMLTags` has no `<` followed
anywhere later by a `>`; a text before the first fragment is kept as it is and
the fragment `<...>` up to its first `>` is replaced by exactly one newline,
the rest being treated the same way; a text without fragment is returned
unchanged; hence `StripHTMLTags` applied twice gives the same as applied once. -/
theorem StripHTMLTags_leaves_no_fragment (input : Str) :
    noFragment (StripHTMLTags input)
      ∧ (∀ t body rest : Str, '<' ∉ t → '>' ∉ body →
          StripHTMLTags (t ++ '<' :: (body ++ '>' :: rest)) = t ++ '\n' :: StripHTMLTags rest)
      ∧ (∀ t : Str, noFragment t → StripHTMLTags t = t)
      ∧ StripHTMLTags (StripHTMLTags input) = StripHTMLTags input :=
  ⟨noFragment_replaceTags false input,
   fun t body rest ht hb => replaceTags_fragment t body rest ht hb,
   fun t ht => replaceTags_of_noFragment t ht,
   replaceTags_of_noFragment _ (noFragment_replaceTags false input)⟩

/-! ## Theorems: the scan loop -/

theorem scanItem_eq_extract (world : World) (st : ScanState) (item : Node) :
    scanItem world st item
      = (extractItem world item).bind fun r => commitItem st r.workshopId r.title r.modId r.mpId := by
  unfold scanItem extractItem
  simp only [bind, Except.bind]
  repeat' split
  all_goals first
    | rfl
    | simp_all

theorem commitItem_fields (st st' : ScanState) (workshopId title : Str) (modId mpId : List Str)
    (h : commitItem st workshopId title modId mpId = .ok st') :
    st'.workshopIds = st.workshopIds ++ [workshopId]
      ∧ st'.modIds = st.modIds ++ modId.head?.toList
      ∧ st'.mapIds = st.mapIds ++ mpId := by
  have pol := commitItem_eq st workshopId title mpId
  have hmap : (if mpId.length > 0 then st.mapIds ++ mpId else st.mapIds) = st.mapIds ++ mpId := by
    cases mpId <;> simp
  match modId, h with
  | [], h =>
    rw [pol.1] at h
    cases h
    exact ⟨rfl, by simp, hmap⟩
  | [c], h =>
    rw [pol.2.1 c] at h
    cases h
    exact ⟨rfl, by simp, hmap⟩
  | c0 :: c1 :: more, h =>
    rw [pol.2.2 c0 c1 more] at h
    cases h
    exact ⟨rfl, by simp, hmap⟩

theorem scanLoop_results (world : World) (items : List Node) (st st' : ScanState)
    (h : scanLoop world st items = .ok st') :
    ∃ results : List ItemResult,
      List.Forall₂ (fun item r => extractItem world item = .ok r) items results
        ∧ st'.workshopIds = st.workshopIds ++ results.map ItemResult.workshopId
        ∧ st'.modIds = st.modIds ++ results.filterMap (fun r => r.modId.head?)
        ∧ st'.mapIds = st.mapIds ++ (results.map ItemResult.mpId).flatten := by
  induction items generalizing st with
  | nil =>
    simp only [scanLoop] at h
    cases h
    exact ⟨[], List.Forall₂.nil, by simp, by simp, by simp⟩
  | cons item items ih =>
    simp only [scanLoop, bind, Except.bind] at h
    split at h
    · cases h
    · rename_i st1 h1
      rw [scanItem_eq_extract] at h1
      cases hx : extractItem world item with
      | error f => simp [hx, Except.bind] at h1
      | ok r =>
        simp only [hx, Except.bind] at h1
        obtain ⟨hw, hm, hp⟩ := commitItem_fields _ _ _ _ _ _ h1
        obtain ⟨results, hall, hw', hm', hp'⟩ := ih st1 h
        refine ⟨r :: results, List.Forall₂.cons hx hall, ?_, ?_, ?_⟩
        · rw [hw', hw]; simp
        · rw [hm', hm]
          cases hh : r.modId.head? <;> simp [List.filterMap_cons, hh]
        · rw [hp', hp]; simp

theorem get?_append_of_lt {α : Type} (l : List α) (x : α) (i : Nat) (h : i < l.length) :
    (l ++ [x]).get? i = l.get? i := by
  simp [List.getElem?_append_left h]

theorem commitItem_placeholdersSound (st st' : ScanState) (workshopId title : Str)
    (modId mpId : List Str) (h : commitItem st workshopId title modId mpId = .ok st')
    (hst : st.placeholdersSound) : st'.placeholdersSound := by
  obtain ⟨hp, hb⟩ := hst
  have pol := commitItem_eq st workshopId title mpId
  match modId, h with
  | [], h =>
    rw [pol.1] at h
    cases h
    exact ⟨hp, hb⟩
  | [c], h =>
    rw [pol.2.1 c] at h
    cases h
    refine ⟨hp, fun p hpm => ?_⟩
    obtain ⟨h2, hlt, hget⟩ := hb p hpm
    refine ⟨h2, ?_, ?_⟩
    · simp only [List.length_append, List.length_singleton]
      omega
    · rw [get?_append_of_lt _ _ _ hlt]
      exact hget
  | c0 :: c1 :: more, h =>
    rw [pol.2.2 c0 c1 more] at h
    cases h
    constructor
    · simp only [List.map_append, List.map_cons, List.map_nil, List.pairwise_append,
        List.pairwise_cons, List.Pairwise.nil, List.mem_map, List.mem_singleton]
      refine ⟨hp, ⟨by simp, trivial⟩, ?_⟩
      rintro a ⟨p, hpm, rfl⟩ b rfl
      exact (hb p hpm).2.1
    · intro p hpm
      simp only [List.mem_append, List.mem_singleton] at hpm
      rcases hpm with hpm | rfl
      · obtain ⟨h2, hlt, hget⟩ := hb p hpm
        refine ⟨h2, ?_, ?_⟩
        · simp only [List.length_append, List.length_singleton]
          omega
        · rw [get?_append_of_lt _ _ _ hlt]
          exact hget
      · refine ⟨by simp, by simp, ?_⟩
        simp

theorem scanLoop_placeholdersSound (world : World) (items : List Node) (st st' : ScanState)
    (h : scanLoop world st items = .ok st') (hst : st.placeholdersSound) :
    st'.placeholdersSound := by
  induction items generalizing st with
  | nil =>
    simp only [scanLoop] at h
    cases h
    exact hst
  | cons item items ih =>
    simp only [scanLoop, bind, Except.bind] at h
    split at h
    · cases h
    · rename_i st1 h1
      obtain ⟨w, t, mo, mp, hc⟩ := scanItem_commits world st st1 item h1
      exact ih st1 h (commitItem_placeholdersSound st st1 w t mo mp hc hst)

/-- C16: in every state the scan of any sequence of items reaches, every
placeholder has at least two options, its reserved index is below
`len(modIds)`, `modIds` holds the placeholder's first option at that index, and
the reserved indexes are strictly increasing in creation order, hence pairwise
distinct; so a write at a reserved index into a slice of the length of `modIds`
is within bounds. -/
theorem scan_placeholder_invariant (world : World) (items : List Node) (st : ScanState)
    (hscan : scanLoop world ScanState.init items = .ok st) :
    (∀ p ∈ st.reservedIndexes, 2 ≤ p.options.length ∧ p.reservedIndex < st.modIds.length
        ∧ st.modIds.get? p.reservedIndex = p.options.get? 0)
      ∧ (st.reservedIndexes.map reservedPlaceholder.reservedIndex).Pairwise (· < ·)
      ∧ (st.reservedIndexes.map reservedPlaceholder.reservedIndex).Nodup
      ∧ ∀ p ∈ st.reservedIndexes, ∀ (modIds : List Str) (v : Str),
          modIds.length = st.modIds.length →
          setIndex modIds p.reservedIndex v = .ok (modIds.set p.reservedIndex v) := by
  have hs : st.placeholdersSound :=
    scanLoop_placeholdersSound world items ScanState.init st hscan
      ⟨List.Pairwise.nil, fun p hp => by simp [ScanState.init] at hp⟩
  refine ⟨hs.2, hs.1, hs.1.imp (fun hlt => Nat.ne_of_lt hlt), ?_⟩
  intro p hp modIds v hlen
  have := (hs.2 p hp).2.1
  simp [setIndex, hlen, this]

/-- Witness of C16: the state after the one item of scenario B. -/
theorem scan_placeholder_invariant_witness :
    (∀ p ∈ scenarioBState.reservedIndexes,
        2 ≤ p.options.length ∧ p.reservedIndex < scenarioBState.modIds.length
        ∧ scenarioBState.modIds.get? p.reservedIndex = p.options.get? 0)
      ∧ (scenarioBState.reservedIndexes.map reservedPlaceholder.reservedIndex).Pairwise (· < ·)
      ∧ (scenarioBState.reservedIndexes.map reservedPlaceholder.reservedIndex).Nodup
      ∧ ∀ p ∈ scenarioBState.reservedIndexes, ∀ (modIds : List Str) (v : Str),
          modIds.length = scenarioBState.modIds.length →
          setIndex modIds p.reservedIndex v = .ok (modIds.set p.reservedIndex v) :=
  scan_placeholder_invariant scenarioBWorld [scenarioBItem] scenarioBState (by rfl)

theorem resolveMods_length (ps : List reservedPlaceholder) (modIds modIds' : List Str)
    (answers unread : Answers) (h : resolveMods ps modIds answers = .ok (modIds', unread)) :
    modIds'.length = modIds.length := by
  induction ps generalizing modIds answers with
  | nil =>
    simp only [resolveMods] at h
    cases h
    rfl
  | cons p ps ih =>
    simp only [resolveMods, bind, Except.bind] at h
    split at h
    · cases h
    · split at h
      · cases h
      · split at h
        · cases h
        · rename_i l hl
          have := ih _ _ h
          unfold setIndex at hl
          split at hl
          · cases hl
            simpa using this
          · cases hl

theorem resolve_ok (st : ScanState) (answers unread : Answers) (out : Str)
    (h : resolve st answers = .ok (out, unread)) :
    ∃ modIds' rest m, resolveMods st.reservedIndexes st.modIds answers = .ok (modIds', rest)
      ∧ resolveMap (st.mapIds ++ [[]]) rest = .ok (m, unread)
      ∧ out = createConfigOutput st.workshopIds modIds' m := by
  simp only [resolve, bind, Except.bind] at h
  split at h
  · cases h
  · rename_i r hr
    split at h
    · cases h
    · rename_i m hm
      cases h
      exact ⟨r.1, r.2, m.1, hr, hm, rfl⟩

theorem length_filterMap_head? (results : List ItemResult) :
    (results.filterMap (fun r => r.modId.head?)).length
      = results.countP (fun r => decide (r.modId ≠ [])) := by
  induction results with
  | nil => rfl
  | cons r rs ih =>
    cases hh : r.modId with
    | nil => simpa [List.filterMap_cons, hh, List.countP_cons] using ih
    | cons c cs => simpa [List.filterMap_cons, hh, List.countP_cons] using ih

/-- C13: after the scan of `n` items that did not fail, `workshopIds` lists the
workshop ids of the items in document order and has length `n`; `modIds` lists,
in the order of the items, the first mod candidate of each item that has at
least one, and its length is the number of these items; the resolution loop
keeps the length of `modIds`, and the configuration printed is made of the same
`workshopIds` and of a `modIds` of the same length. -/
theorem scan_committed_lists (world : World) (items : List Node) (st : ScanState)
    (hscan : scanLoop world ScanState.init items = .ok st) :
    ∃ results : List ItemResult,
      List.Forall₂ (fun item r => extractItem world item = .ok r) items results
        ∧ st.workshopIds = results.map ItemResult.workshopId
        ∧ st.workshopIds.length = items.length
        ∧ st.modIds = results.filterMap (fun r => r.modId.head?)
        ∧ st.modIds.length = results.countP (fun r => decide (r.modId ≠ []))
        ∧ (∀ answers modIds' unread,
            resolveMods st.reservedIndexes st.modIds answers = .ok (modIds', unread) →
            modIds'.length = st.modIds.length)
        ∧ (∀ answers out unread, resolve st answers = .ok (out, unread) →
            ∃ modIds' m, modIds'.length = st.modIds.length
              ∧ out = createConfigOutput st.workshopIds modIds' m) := by
  obtain ⟨results, hall, hw, hm, _⟩ := scanLoop_results world items ScanState.init st hscan
  simp only [ScanState.init, List.nil_append] at hw hm
  refine ⟨results, hall, hw, ?_, hm, ?_, ?_, ?_⟩
  · rw [hw, List.length_map, hall.length_eq]
  · rw [hm]
    exact length_filterMap_head? results
  · intro answers modIds' unread h
    exact resolveMods_length _ _ _ _ _ h
  · intro answers out unread h
    obtain ⟨modIds', rest, m, h1, _, h3⟩ := resolve_ok st answers unread out h
    exact ⟨modIds', m, resolveMods_length _ _ _ _ _ h1, h3⟩

/-- Witness of C13: the one item of scenario B. -/
theorem scan_committed_lists_witness :
    ∃ results : List ItemResult,
      List.Forall₂ (fun item r => extractItem scenarioBWorld item = .ok r)
          [scenarioBItem] results
        ∧ scenarioBState.workshopIds = results.map ItemResult.workshopId
        ∧ scenarioBState.workshopIds.length = [scenarioBItem].length
        ∧ scenarioBState.modIds = results.filterMap (fun r => r.modId.head?)
        ∧ scenarioBState.modIds.length = results.countP (fun r => decide (r.modId ≠ []))
        ∧ (∀ answers modIds' unread,
            resolveMods scenarioBState.reservedIndexes scenarioBState.modIds answers
              = .ok (modIds', unread) →
            modIds'.length = scenarioBState.modIds.length)
        ∧ (∀ answers out unread, resolve scenarioBState answers = .ok (out, unread) →
            ∃ modIds' m, modIds'.length = scenarioBState.modIds.length
              ∧ out = createConfigOutput scenarioBState.workshopIds modIds' m) :=
  scan_committed_lists scenarioBWorld [scenarioBItem] scenarioBState (by rfl)

/-! ## Theorems: the selections -/

theorem index_out_of_range {α : Type} (xs : List α) (i : Int)
    (h : i < 0 ∨ (xs.length : Int) ≤ i) : index xs i = .error .panic := by
  unfold index
  split
  · rfl
  · rename_i hneg
    have hge : xs.length ≤ i.toNat := by omega
    simp [List.getElem?_eq_none hge]

theorem index_ok {α : Type} (xs : List α) (i : Int) (x : α) (h : index xs i = .ok x) :
    ∃ k : Nat, i = Int.ofNat k ∧ k < xs.length ∧ xs.get? k = some x := by
  unfold index at h
  split at h
  · cases h
  · rename_i hneg
    split at h
    · rename_i y hy
      cases h
      refine ⟨i.toNat, ?_, ?_, hy⟩
      · simp only [Int.ofNat_eq_coe]; omega
      · by_contra hlt
        have hge : xs.length ≤ i.toNat := by omega
        simp [List.getElem?_eq_none hge] at hy
    · cases h

theorem resolveMap_ofNat (mapIds : List Str) (k : Nat) (unread : Answers)
    (h : k < mapIds.length) :
    resolveMap mapIds (some (Int.ofNat k) :: unread) = .ok (mapIds.get ⟨k, h⟩, unread) := by
  have hpos : mapIds.length > 0 := by omega
  unfold resolveMap
  rw [if_pos hpos]
  simp only [scanln, bind, Except.bind]
  rw [index_ofNat _ k h]

theorem resolveMods_in_range (ps : List reservedPlaceholder) (modIds modIds' : List Str)
    (answers unread : Answers) (h : resolveMods ps modIds answers = .ok (modIds', unread)) :
    ∃ sel : List Nat, List.Forall₂ (fun p k => k < p.options.length) ps sel
      ∧ answers = sel.map (fun k : Nat => some (Int.ofNat k)) ++ unread := by
  induction ps generalizing modIds answers with
  | nil =>
    simp only [resolveMods] at h
    cases h
    exact ⟨[], List.Forall₂.nil, rfl⟩
  | cons p ps ih =>
    cases answers with
    | nil => simp [resolveMods, scanln] at h
    | cons a rest =>
      cases a with
      | none => simp [resolveMods, scanln] at h
      | some input =>
        simp only [resolveMods, scanln, bind, Except.bind] at h
        split at h
        · cases h
        · rename_i option hopt
          split at h
          · cases h
          · obtain ⟨k, rfl, hk, _⟩ := index_ok _ _ _ hopt
            obtain ⟨sel, hall, hrest⟩ := ih _ _ h
            exact ⟨k :: sel, List.Forall₂.cons hk hall, by simp [hrest]⟩

theorem resolveMods_out_of_range (ps1 ps2 : List reservedPlaceholder) (p : reservedPlaceholder)
    (sel1 : List Nat) (modIds : List Str) (input : Int) (answers : Answers)
    (hsel : List.Forall₂ (fun p k => k < p.options.length) ps1 sel1)
    (hout : input < 0 ∨ (p.options.length : Int) ≤ input) :
    resolveMods (ps1 ++ p :: ps2) modIds
        (sel1.map (fun k : Nat => some (Int.ofNat k)) ++ some input :: answers)
      = .error .panic := by
  induction hsel generalizing modIds with
  | nil =>
    simp [resolveMods, scanln, index_out_of_range _ _ hout, bind, Except.bind]
  | @cons q k ps1 sel1 hk _ ih =>
    simp only [List.cons_append, List.map_cons, resolveMods, scanln, index_ofNat _ k hk, bind,
      Except.bind]
    by_cases hq : q.reservedIndex < modIds.length
    · simp only [setIndex, hq, if_true]
      exact ih _
    · simp only [setIndex, hq, if_false]

theorem resolve_of_selections (st : ScanState) (sel : List Nat) (k : Nat) (unread : Answers)
    (hw : st.wellReserved)
    (hsel : List.Forall₂ (fun p i => i < p.options.length) st.reservedIndexes sel)
    (hk : k < (st.mapIds ++ [[]]).length) :
    ∃ modIds', resolveMods st.reservedIndexes st.modIds
          (sel.map (fun i : Nat => some (Int.ofNat i)) ++ some (Int.ofNat k) :: unread)
          = .ok (modIds', some (Int.ofNat k) :: unread)
      ∧ resolve st (sel.map (fun i : Nat => some (Int.ofNat i)) ++ some (Int.ofNat k) :: unread)
          = .ok (createConfigOutput st.workshopIds modIds' ((st.mapIds ++ [[]]).get ⟨k, hk⟩),
                 unread) := by
  obtain ⟨modIds', hres, _⟩ := resolveMods_spec st.reservedIndexes sel st.modIds
    (some (Int.ofNat k) :: unread) hsel (hw.1.imp (fun hlt => Nat.ne_of_lt hlt)) hw.2
  refine ⟨modIds', hres, ?_⟩
  simp only [resolve, bind, Except.bind, hres, resolveMap_ofNat _ k unread hk]

theorem finish_succ (n : Nat) (st : ScanState) (answers : Answers) :
    finish (n + 1) st answers = resolve st answers := by
  have hm : Int.tmod (4 * ((n + 1 : Nat) : Int) - 1) ((steps.length : Nat) : Int) = Int.ofNat 3 := by
    have h : (0 : Int) ≤ 4 * ((n + 1 : Nat) : Int) - 1 := by omega
    have hl : ((steps.length : Nat) : Int) = 4 := rfl
    rw [hl, Int.tmod_eq_emod h (by decide)]
    simp only [Int.ofNat_eq_coe]
    omega
  have hs : barPrepend steps (4 * ((n + 1 : Nat) : Int))
      = .ok (steps.get ⟨3, by decide⟩) := by
    unfold barPrepend
    rw [hm]
    exact index_ofNat steps 3 (by decide)
  simp only [finish, hs, bind, Except.bind]

/-- For a collection of one item or more: after the scan the map pool is the
concatenation of the items' map candidate lists in item order, duplicates kept;
the list the map selection indexes is the pool followed by one empty entry; for
a selection `k` below the number of pooled candidates the map id of the
configuration is the `k`-th pooled candidate, and for `k` equal to that number
it is the empty string. -/
theorem map_candidates_pooled (world : World) (items : List Node) (st : ScanState)
    (sel : List Nat) (k : Nat) (unread : Answers) (hitems : items ≠ [])
    (hscan : scanLoop world ScanState.init items = .ok st)
    (hsel : List.Forall₂ (fun p i => i < p.options.length) st.reservedIndexes sel)
    (hk : k ≤ st.mapIds.length) :
    ∃ (results : List ItemResult) (modIds' : List Str) (m : Str),
      List.Forall₂ (fun item r => extractItem world item = .ok r) items results
        ∧ st.mapIds = (results.map ItemResult.mpId).flatten
        ∧ resolveMods st.reservedIndexes st.modIds
            (sel.map (fun i : Nat => some (Int.ofNat i)) ++ some (Int.ofNat k) :: unread)
            = .ok (modIds', some (Int.ofNat k) :: unread)
        ∧ resolveMap ((results.map ItemResult.mpId).flatten ++ [[]])
            (some (Int.ofNat k) :: unread) = .ok (m, unread)
        ∧ finish items.length st
            (sel.map (fun i : Nat => some (Int.ofNat i)) ++ some (Int.ofNat k) :: unread)
            = .ok (createConfigOutput st.workshopIds modIds' m, unread)
        ∧ (k < st.mapIds.length → st.mapIds.get? k = some m)
        ∧ (k = st.mapIds.length → m = []) := by
  obtain ⟨results, hall, _, _, hp⟩ := scanLoop_results world items ScanState.init st hscan
  simp only [ScanState.init, List.nil_append] at hp
  have hw : st.wellReserved :=
    scanLoop_wellReserved world items ScanState.init st hscan
      ⟨List.Pairwise.nil, fun p hp => by simp [ScanState.init] at hp⟩
  have hk' : k < (st.mapIds ++ [[]]).length := by
    simp only [List.length_append, List.length_singleton]
    omega
  obtain ⟨modIds', hmods, hres⟩ := resolve_of_selections st sel k unread hw hsel hk'
  obtain ⟨n, hn⟩ : ∃ n, items.length = n + 1 := by
    cases items with
    | nil => exact absurd rfl hitems
    | cons item rest => exact ⟨rest.length, rfl⟩
  refine ⟨results, modIds', (st.mapIds ++ [[]]).get ⟨k, hk'⟩, hall, hp, hmods, ?_, ?_, ?_, ?_⟩
  · rw [← hp]
    exact resolveMap_ofNat _ k unread hk'
  · rw [hn, finish_succ]
    exact hres
  · intro hlt
    simp [List.getElem_append_left hlt, List.getElem?_eq_getElem hlt]
  · intro he
    subst he
    simp

/-- The three items of scenario C contribute `mapA`, `mapB`, `mapC`; selection
`1` gives `mapB`. -/
theorem map_candidates_pooled_scenarioC :
    scanLoop scenarioCWorld ScanState.init scenarioCItems = .ok scenarioCState
      ∧ scenarioCState.mapIds ++ [[]] = ["mapA".toList, "mapB".toList, "mapC".toList, []]
      ∧ finish scenarioCItems.length scenarioCState [some 1]
          = .ok (createConfigOutput ["1".toList, "2".toList, "3".toList] [] "mapB".toList, [])
      ∧ ∃ (results : List ItemResult) (modIds' : List Str) (m : Str),
        List.Forall₂ (fun item r => extractItem scenarioCWorld item = .ok r) scenarioCItems results
          ∧ scenarioCState.mapIds = (results.map ItemResult.mpId).flatten
          ∧ resolveMods scenarioCState.reservedIndexes scenarioCState.modIds
              ([].map (fun i : Nat => some (Int.ofNat i)) ++ some (Int.ofNat 1) :: [])
              = .ok (modIds', some (Int.ofNat 1) :: [])
          ∧ resolveMap ((results.map ItemResult.mpId).flatten ++ [[]])
              (some (Int.ofNat 1) :: []) = .ok (m, [])
          ∧ finish scenarioCItems.length scenarioCState
              ([].map (fun i : Nat => some (Int.ofNat i)) ++ some (Int.ofNat 1) :: [])
              = .ok (createConfigOutput scenarioCState.workshopIds modIds' m, [])
          ∧ (1 < scenarioCState.mapIds.length → scenarioCState.mapIds.get? 1 = some m)
          ∧ (1 = scenarioCState.mapIds.length → m = []) :=
  ⟨by rfl, by rfl, by rfl,
    map_candidates_pooled scenarioCWorld scenarioCItems scenarioCState [] 1 []
      (fun h => List.noConfusion h) (by rfl) List.Forall₂.nil (by decide)⟩

/-- C11 (divergence): for a collection page without items the run panics when
the progress bar is stopped: `Current()` is 0 and the closure of
`bar.PrependFunc` indexes `steps[-1]`.  No map list is presented and no map id
is chosen, where the claim has the list of the one empty entry presented and
selection `0` give the empty map id.  With one item or more the closure finds
its entry and the run goes on to the selections. -/
theorem run_panics_on_empty_collection (url : Str) (answers : Answers) :
    doTraverse emptyCollectionPage [] "collectionItem".toList "class".toList = []
      ∧ barPrepend steps 0 = .error .panic
      ∧ finish 0 ScanState.init answers = .error .panic
      ∧ run emptyCollectionWorld url answers = .error .panic
      ∧ ∀ (n : Nat) (st : ScanState) (answers' : Answers),
          finish (n + 1) st answers' = resolve st answers' :=
  ⟨by rfl, by rfl, by rfl, by rfl, finish_succ⟩

/-- C12: in every state the scan produces, a selection for a placeholder that
is outside `[0, len(options))`, and a map selection outside the index range of
the presented list, make the run after the scan panic, so no configuration is
printed; and whenever a configuration is printed, every placeholder's slot of
`modIds` holds the option selected for it, the other positions are as the scan
left them, and the map id is the selected entry of the presented list. -/
theorem out_of_range_selection_aborts (world : World) (items : List Node) (st : ScanState)
    (hscan : scanLoop world ScanState.init items = .ok st) :
    (∀ (ps1 ps2 : List reservedPlaceholder) (p : reservedPlaceholder) (sel1 : List Nat)
        (input : Int) (answers : Answers),
        st.reservedIndexes = ps1 ++ p :: ps2 →
        List.Forall₂ (fun p i => i < p.options.length) ps1 sel1 →
        (input < 0 ∨ (p.options.length : Int) ≤ input) →
        resolve st (sel1.map (fun i : Nat => some (Int.ofNat i)) ++ some input :: answers)
          = .error .panic)
      ∧ (∀ (sel : List Nat) (input : Int) (answers : Answers),
        List.Forall₂ (fun p i => i < p.options.length) st.reservedIndexes sel →
        (input < 0 ∨ ((st.mapIds ++ [[]]).length : Int) ≤ input) →
        resolve st (sel.map (fun i : Nat => some (Int.ofNat i)) ++ some input :: answers)
          = .error .panic)
      ∧ (∀ (answers unread : Answers) (out : Str), resolve st answers = .ok (out, unread) →
        ∃ (sel : List Nat) (k : Nat) (modIds' : List Str) (m : Str),
          List.Forall₂ (fun p i => i < p.options.length) st.reservedIndexes sel
            ∧ answers = sel.map (fun i : Nat => some (Int.ofNat i)) ++ some (Int.ofNat k) :: unread
            ∧ List.Forall₂ (fun p i => modIds'.get? p.reservedIndex = p.options.get? i)
                st.reservedIndexes sel
            ∧ (∀ j, (∀ p ∈ st.reservedIndexes, p.reservedIndex ≠ j) →
                modIds'.get? j = st.modIds.get? j)
            ∧ (st.mapIds ++ [[]]).get? k = some m
            ∧ out = createConfigOutput st.workshopIds modIds' m) := by
  have hw : st.wellReserved :=
    scanLoop_wellReserved world items ScanState.init st hscan
      ⟨List.Pairwise.nil, fun p hp => by simp [ScanState.init] at hp⟩
  refine ⟨?_, ?_, ?_⟩
  · intro ps1 ps2 p sel1 input answers hps hsel hout
    simp only [resolve, bind, Except.bind, hps,
      resolveMods_out_of_range ps1 ps2 p sel1 st.modIds input answers hsel hout]
  · intro sel input answers hsel hout
    obtain ⟨modIds', hres, _⟩ := resolveMods_spec st.reservedIndexes sel st.modIds
      (some input :: answers) hsel (hw.1.imp (fun hlt => Nat.ne_of_lt hlt)) hw.2
    have hpos : (st.mapIds ++ [[]]).length > 0 := by simp
    simp only [resolve, bind, Except.bind, hres, resolveMap, hpos, if_true, scanln,
      index_out_of_range _ _ hout]
  · intro answers unread out h
    obtain ⟨modIds', rest, m, hmods, hmap, hout⟩ := resolve_ok st answers unread out h
    obtain ⟨sel, hsel, hans⟩ := resolveMods_in_range _ _ _ _ _ hmods
    obtain ⟨modIds'', hres, _, hall, hframe⟩ := resolveMods_spec st.reservedIndexes sel
      st.modIds rest hsel (hw.1.imp (fun hlt => Nat.ne_of_lt hlt)) hw.2
    rw [← hans, hmods] at hres
    cases hres
    have hpos : (st.mapIds ++ [[]]).length > 0 := by simp
    simp only [resolveMap, hpos, if_true, bind, Except.bind] at hmap
    cases rest with
    | nil => simp [scanln] at hmap
    | cons a rest' =>
      cases a with
      | none => simp [scanln] at hmap
      | some input =>
        simp only [scanln] at hmap
        split at hmap
        · cases hmap
        · rename_i v hv
          simp only [Except.ok.injEq, Prod.mk.injEq] at hmap
          obtain ⟨hvm, hru⟩ := hmap
          obtain ⟨k, hk, _, hget⟩ := index_ok _ _ _ hv
          rw [hk, hru] at hans
          rw [hvm] at hget
          exact ⟨sel, k, modIds', m, hsel, hans, hall, hframe, hget, hout⟩

/-- Witness of C12: the state of scenario B; selection `2` of two options, and
map selection `1` of the one presented entry, panic. -/
theorem out_of_range_selection_aborts_witness :
    resolve scenarioBState [some 2, some 0] = .error .panic
      ∧ resolve scenarioBState [some (-1), some 0] = .error .panic
      ∧ resolve scenarioBState [some 1, some 1] = .error .panic
      ∧ (∀ (answers unread : Answers) (out : Str),
          resolve scenarioBState answers = .ok (out, unread) →
          ∃ (sel : List Nat) (k : Nat) (modIds' : List Str) (m : Str),
            List.Forall₂ (fun p i => i < p.options.length) scenarioBState.reservedIndexes sel
              ∧ answers
                  = sel.map (fun i : Nat => some (Int.ofNat i)) ++ some (Int.ofNat k) :: unread
              ∧ List.Forall₂ (fun p i => modIds'.get? p.reservedIndex = p.options.get? i)
                  scenarioBState.reservedIndexes sel
              ∧ (∀ j, (∀ p ∈ scenarioBState.reservedIndexes, p.reservedIndex ≠ j) →
                  modIds'.get? j = scenarioBState.modIds.get? j)
              ∧ (scenarioBState.mapIds ++ [[]]).get? k = some m
              ∧ out = createConfigOutput scenarioBState.workshopIds modIds' m) :=
  ⟨by rfl, by rfl, by rfl,
    (out_of_range_selection_aborts scenarioBWorld [scenarioBItem] scenarioBState (by rfl)).2.2⟩

/-! ## Theorems: the workshop id -/

theorem splitLoop_of_absent (n : Nat) (s sep : Str) (h : Index s sep = -1) :
    splitLoop n s sep = [s] := by
  cases n with
  | zero => rfl
  | succ n => simp [splitLoop, h]

theorem Split_at_separator (x : Char) (p d : Str) (hp : x ∉ p) (hd : x ∉ d) :
    Split (p ++ x :: d) [x] = [p, d] := by
  have hi : Index (p ++ x :: d) [x] = (p.length : Int) := by
    have := Index_skip_to x [] p d hp
    simpa using this
  have hlen : (p ++ x :: d).length = (p.length + d.length) + 1 := by
    simp only [List.length_append, List.length_cons]
    omega
  have hneg : ¬ ((p.length : Int) < 0) := by omega
  have hdrop : (p ++ x :: d).drop (p.length + 1) = d := by
    rw [List.drop_append]
    rfl
  simp only [Split, List.cons_ne_nil, if_false, hlen, splitLoop, hi, hneg, Int.toNat_ofNat,
    List.take_left, List.length_singleton, hdrop,
    splitLoop_of_absent _ d [x] (Index_not_mem x [] d hd)]

theorem not_mem_of_digits (d : Str) (x : Char) (hx : x.isDigit = false)
    (hdig : ∀ c ∈ d, c.isDigit = true) : x ∉ d := by
  intro h
  have := hdig x h
  rw [hx] at this
  cases this

/-- C19, as stated, fails: for the id attribute `shared_file_123`, of the form
`p ++ "_" ++ d` with `p = shared_file` and `d = 123`, the workshop id found and
committed is `file`, the piece between the first two separators. -/
theorem workshopId_not_suffix_after_second_separator :
    (getAttribute twoSeparatorItem "id".toList).1
        = "shared_file".toList ++ "_".toList ++ "123".toList
      ∧ index (Split (getAttribute twoSeparatorItem "id".toList).1 "_".toList) 1
        = .ok "file".toList
      ∧ (extractItem scenarioBWorld twoSeparatorItem).map ItemResult.workshopId
        = .ok "file".toList
      ∧ (scanItem scenarioBWorld ScanState.init twoSeparatorItem).map ScanState.workshopIds
        = .ok ["file".toList] :=
  ⟨by rfl, by rfl, by rfl, by rfl⟩

/-- C19, amended: for every collection item whose id attribute has the form
`p ++ "_" ++ d`, with `p` free of the separator `_` and `d` a non-empty string
of ASCII digits, the workshop id the loop body finds and commits is exactly `d`,
and the loop body depends on the network only through the page at
`https://steamcommunity.com/sharedfiles/filedetails/?id=` followed by `d`. -/
theorem workshopId_is_suffix (world : World) (st : ScanState) (item : Node) (p d : Str)
    (hid : (getAttribute item "id".toList).1 = p ++ "_".toList ++ d)
    (hp : '_' ∉ p) (_hd : d ≠ []) (hdig : ∀ c ∈ d, c.isDigit = true) :
    index (Split (getAttribute item "id".toList).1 "_".toList) 1 = .ok d
      ∧ (∀ r, extractItem world item = .ok r → r.workshopId = d)
      ∧ (∀ st', scanItem world st item = .ok st' → st'.workshopIds = st.workshopIds ++ [d])
      ∧ (∀ world' : World, world'.htmlParse = world.htmlParse →
          world'.htmlRender = world.htmlRender →
          world'.httpGet ("https://steamcommunity.com/sharedfiles/filedetails/?id=".toList ++ d)
            = world.httpGet
                ("https://steamcommunity.com/sharedfiles/filedetails/?id=".toList ++ d) →
          scanItem world' st item = scanItem world st item) := by
  have hidx : index (Split (getAttribute item "id".toList).1 "_".toList) 1 = .ok d := by
    rw [hid]
    have hs : Split (p ++ "_".toList ++ d) "_".toList = [p, d] := by
      have := Split_at_separator '_' p d hp (not_mem_of_digits d '_' (by decide) hdig)
      simpa using this
    rw [hs]
    rfl
  have hex : ∀ r, extractItem world item = .ok r → r.workshopId = d := by
    intro r h
    unfold extractItem at h
    simp only [bind, Except.bind, hidx] at h
    repeat' split at h
    all_goals first
      | (cases h; rfl)
      | cases h
  refine ⟨hidx, hex, ?_, ?_⟩
  · intro st' h
    rw [scanItem_eq_extract] at h
    cases hx : extractItem world item with
    | error f => simp [hx, Except.bind] at h
    | ok r =>
      simp only [hx, Except.bind] at h
      rw [(commitItem_fields _ _ _ _ _ _ h).1, hex r hx]
  · intro world' h1 h2 h3
    unfold scanItem
    simp only [bind, Except.bind, hidx, loadUrlContent, parseHtmlContent, renderNode, h1, h2, h3]

/-- Witness of C19 amended: the item of scenario B, with id attribute
`sharedfile_2169435993`. -/
theorem workshopId_is_suffix_witness :
    index (Split (getAttribute scenarioBItem "id".toList).1 "_".toList) 1
        = .ok "2169435993".toList
      ∧ (∀ r, extractItem scenarioBWorld scenarioBItem = .ok r →
          r.workshopId = "2169435993".toList)
      ∧ (∀ st', scanItem scenarioBWorld ScanState.init scenarioBItem = .ok st' →
          st'.workshopIds = ScanState.init.workshopIds ++ ["2169435993".toList])
      ∧ (∀ world' : World, world'.htmlParse = scenarioBWorld.htmlParse →
          world'.htmlRender = scenarioBWorld.htmlRender →
          world'.httpGet ("https://steamcommunity.com/sharedfiles/filedetails/?id=".toList
              ++ "2169435993".toList)
            = scenarioBWorld.httpGet
                ("https://steamcommunity.com/sharedfiles/filedetails/?id=".toList
                  ++ "2169435993".toList) →
          scanItem world' ScanState.init scenarioBItem
            = scanItem scenarioBWorld ScanState.init scenarioBItem) :=
  workshopId_is_suffix scenarioBWorld ScanState.init scenarioBItem "sharedfile".toList
    "2169435993".toList (by rfl) (by decide) (by decide) (by decide)

/-! ## Theorems: the scanned suffix -/

theorem isPrefixOf_take (s : Str) (k : Nat) : (s.take k).isPrefixOf s = true := by
  have h := isPrefixOf_append_self (s.take k) (s.drop k)
  rwa [List.take_append_drop] at h

/-- Where the label is found at an offset `k > 0` and the text before it does
not occur again after it, `stripParse` scans the suffix from `k`. -/
theorem stripParse_eq_suffix (str : Str) (variants : List Str) (k : Nat)
    (hk : Index (ToLower str) (findVariant (ToLower str) variants) = (k : Int))
    (hpos : 0 < k) (hle : k ≤ str.length)
    (hfresh : Index (str.drop k) (str.take k) = -1) :
    stripParse str variants = stripParseSuffix str variants := by
  have hslice : slice str 0 (k : Int) = .ok (str.take k) := by
    have hc : (0 : Int) ≤ 0 ∧ (0 : Int) ≤ (k : Int) ∧ (k : Int) ≤ (str.length : Int) := by
      omega
    simp [slice, hc]
  have hsep : str.take k ≠ [] := by
    intro h
    have := congrArg List.length h
    simp only [List.length_take, List.length_nil] at this
    omega
  have hseplen : (str.take k).length = k := by
    simp only [List.length_take]
    omega
  have hsplit : Split str (str.take k) = [[], str.drop k] := by
    have hlen : ∃ n, str.length = n + 1 := ⟨str.length - 1, by omega⟩
    obtain ⟨n, hn⟩ := hlen
    have h0 : Index str (str.take k) = 0 := by
      have := indexFrom_of_isPrefixOf (str.take k) str 0 (isPrefixOf_take str k)
      simpa [Index] using this
    simp only [Split, hsep, if_false, hn, splitLoop, h0, Int.lt_irrefl, Int.toNat_zero,
      List.take_zero, Nat.zero_add, hseplen, splitLoop_of_absent _ _ _ hfresh]
  simp only [stripParse, stripParseSuffix, hk, hslice, hsplit, bind, Except.bind,
    Int.toNat_ofNat]
  rfl

/-- C17 (divergence): `stripParse` does not scan the suffix that starts at the
label.  With the label at offset 0 (`Mod ID: 111` first in the text) the suffix
holds the value `111` and `stripParse` returns nothing; when the text before the
label (`- `) occurs again later, `stripParse` stops there and returns `a` where
the scan of the suffix returns `a - Mod ID: b`. -/
theorem stripParse_differs_from_suffix_scan :
    stripParseSuffix "Mod ID: 111 \n".toList (produceVariants "Mod ID:".toList)
        = .ok ["111".toList]
      ∧ stripParse "Mod ID: 111 \n".toList (produceVariants "Mod ID:".toList) = .ok []
      ∧ stripParseSuffix "- Mod ID: a - Mod ID: b \n".toList (produceVariants "Mod ID:".toList)
        = .ok ["a - Mod ID: b".toList]
      ∧ stripParse "- Mod ID: a - Mod ID: b \n".toList (produceVariants "Mod ID:".toList)
        = .ok ["a".toList] :=
  ⟨by rfl, by rfl, by rfl, by rfl⟩

/-! ## Theorems: values in order of occurrence -/

theorem digit_bounds (c : Char) (h : c.isDigit = true) : 48 ≤ c.toNat ∧ c.toNat ≤ 57 := by
  simp only [Char.isDigit, Bool.and_eq_true, decide_eq_true_eq] at h
  exact ⟨h.1, h.2⟩

theorem toLower_of_digit (c : Char) (h : c.isDigit = true) : c.toLower = c := by
  obtain ⟨h1, h2⟩ := digit_bounds c h
  unfold Char.toLower
  have : ¬ (c.toNat ≥ 65 ∧ c.toNat ≤ 90) := by omega
  simp only [this, if_false]

theorem digit_of_toLower (c : Char) (h : c.toLower.isDigit = true) : c.toLower = c := by
  by_cases hu : c.toNat ≥ 65 ∧ c.toNat ≤ 90
  · exfalso
    have hb := digit_bounds _ h
    unfold Char.toLower at hb
    simp only [hu, and_self, if_true] at hb
    obtain ⟨h1, h2⟩ := hu
    generalize c.toNat = n at h1 h2 hb
    interval_cases n <;> simp at hb
  · unfold Char.toLower
    simp only [hu, if_false]

theorem ToLower_append (a b : Str) : ToLower (a ++ b) = ToLower a ++ ToLower b := by
  simp [ToLower]

theorem ToLower_of_digits (v : Str) (h : ∀ c ∈ v, c.isDigit = true) : ToLower v = v := by
  induction v with
  | nil => rfl
  | cons c v ih =>
    simp only [ToLower, List.map_cons] at *
    rw [toLower_of_digit c (h c (by simp)), ih (fun x hx => h x (List.mem_cons_of_mem _ hx))]

/-- The page after its opening `<div>`. -/
theorem modIdPage_cons (v : Str) (vs : List Str) :
    (((v :: vs).map modIdBlock).flatten ++ "</div>".toList)
      = "Mod ID: ".toList ++ v ++ ('<' :: ("br/".toList ++ '>' ::
          ((vs.map modIdBlock).flatten ++ "</div>".toList))) := by
  simp only [List.map_cons, List.flatten_cons, modIdBlock, List.append_assoc]
  rfl

theorem strip_modIdBlocks (vs : List Str) (h : ∀ v ∈ vs, digitString v) :
    replaceTags false ((vs.map modIdBlock).flatten ++ "</div>".toList)
      = (vs.map fun v => "Mod ID: ".toList ++ v ++ "\n".toList).flatten ++ "\n".toList := by
  induction vs with
  | nil => rfl
  | cons v vs ih =>
    have hv := h v (by simp)
    have ht : '<' ∉ "Mod ID: ".toList ++ v := by
      intro hm
      rcases List.mem_append.mp hm with hm | hm
      · exact absurd hm (by decide)
      · exact not_mem_of_digits v '<' (by decide) hv.2 hm
    rw [modIdPage_cons, replaceTags_fragment _ _ _ ht (by decide),
      ih (fun x hx => h x (List.mem_cons_of_mem _ hx))]
    simp only [List.map_cons, List.flatten_cons, List.append_assoc]
    rfl

theorem no_div_in_modIdBlocks (vs : List Str) (h : ∀ v ∈ vs, digitString v) (i : Nat) :
    indexFrom "<div>".toList ((vs.map modIdBlock).flatten ++ "</div>".toList) i = -1 := by
  induction vs generalizing i with
  | nil => simp [indexFrom, List.isPrefixOf]
  | cons v vs ih =>
    have hv := h v (by simp)
    have ht : '<' ∉ "Mod ID: ".toList ++ v := by
      intro hm
      rcases List.mem_append.mp hm with hm | hm
      · exact absurd hm (by decide)
      · exact not_mem_of_digits v '<' (by decide) hv.2 hm
    rw [modIdPage_cons, show "<div>".toList = '<' :: "div>".toList from rfl,
      indexFrom_skip '<' _ _ _ i ht]
    have hnp : ('<' :: "div>".toList).isPrefixOf ('<' :: ("br/".toList ++ '>' ::
        ((vs.map modIdBlock).flatten ++ "</div>".toList))) = false := by
      simp [List.isPrefixOf]
    rw [indexFrom, hnp]
    simp only [Bool.false_eq_true, if_false]
    have hb : '<' ∉ "br/".toList ++ ['>'] := by decide
    have := indexFrom_skip '<' "div>".toList ("br/".toList ++ ['>'])
      ((vs.map modIdBlock).flatten ++ "</div>".toList)
      (i + ("Mod ID: ".toList ++ v).length + 1) hb
    simp only [List.append_assoc, List.singleton_append] at this
    rw [this]
    exact ih (fun x hx => h x (List.mem_cons_of_mem _ hx)) _

theorem greedyLengths_succ (n : Nat) : greedyLengths (n + 1) = (n + 1) :: greedyLengths n := by
  simp only [greedyLengths, List.range'_concat, List.reverse_append, List.reverse_cons,
    List.reverse_nil, List.nil_append, List.singleton_append]
  congr 1
  omega

theorem not_regexSpace_of_digit (c : Char) (h : c.isDigit = true) : isRegexSpace c = false := by
  obtain ⟨h1, h2⟩ := digit_bounds c h
  have hne : ∀ d : Char, d.toNat < 48 → c ≠ d := by
    intro d hd e
    rw [e] at h1
    omega
  simp [isRegexSpace, hne '\t' (by decide), hne '\n' (by decide), hne (Char.ofNat 12) (by decide),
    hne '\r' (by decide), hne ' ' (by decide)]

theorem not_space_of_digit (c : Char) (h : c.isDigit = true) : isSpace c = false := by
  obtain ⟨h1, h2⟩ := digit_bounds c h
  simp only [isSpace, Bool.or_eq_false_iff, Bool.and_eq_false_iff, decide_eq_false_iff_not]
  omega

/-- The tail `(.+)\s+` on a digit string followed by a newline: the capture is
the digit string, and the closing spaces are the newline and what follows it. -/
theorem matchCapture_digits (v rest : Str) (hv : digitString v) :
    matchCapture (v ++ '\n' :: rest)
      = some (v, v.length + (1 + (rest.takeWhile isRegexSpace).length)) := by
  have hnl : '\n' ∉ v := not_mem_of_digits v '\n' (by decide) hv.2
  have htw : (v ++ '\n' :: rest).takeWhile (fun c => decide (c ≠ '\n')) = v := by
    apply takeWhile_line
    intro c hc
    simp only [ne_eq, decide_not, Bool.not_eq_true', decide_eq_false_iff_not]
    rintro rfl
    exact hnl hc
  obtain ⟨n, hn⟩ : ∃ n, v.length = n + 1 := by
    cases v with
    | nil => exact absurd rfl hv.1
    | cons c cs => exact ⟨cs.length, rfl⟩
  unfold matchCapture
  rw [htw, hn, greedyLengths_succ, List.findSome?_cons, ← hn]
  simp [isRegexSpace]
  omega

theorem matchValueAt_digits (v rest : Str) (hv : digitString v) :
    matchValueAt "mod id:".toList ("mod id:".toList ++ ' ' :: (v ++ '\n' :: rest))
      = some (v, 7 + 1 + (v.length + (1 + (rest.takeWhile isRegexSpace).length))) := by
  obtain ⟨c, cs, rfl⟩ : ∃ c cs, v = c :: cs := by
    cases v with
    | nil => exact absurd rfl hv.1
    | cons c cs => exact ⟨c, cs, rfl⟩
  have hc : isRegexSpace c = false := not_regexSpace_of_digit c (hv.2 c (by simp))
  have htw : (' ' :: (c :: cs ++ '\n' :: rest)).takeWhile isRegexSpace = [' '] := by
    rw [List.takeWhile_cons_of_pos (by rfl), List.cons_append,
      List.takeWhile_cons_of_neg (by simp [hc])]
  unfold matchValueAt
  rw [if_pos (isPrefixOf_append_self _ _)]
  simp only [drop_label "mod id:".toList _ "mod id:".toList.length rfl, htw,
    List.length_singleton]
  rw [show greedyLengths 1 = [1] from rfl, List.findSome?_cons]
  simp only [List.drop_one, List.tail_cons, matchCapture_digits (c :: cs) rest hv, Option.map_some']
  rfl

theorem findAllSubmatch_skip (pfx : Str) (n : Nat) (s : Str) :
    findAllSubmatch pfx n s = findAllSubmatch pfx 0 (s.drop n) := by
  induction s generalizing n with
  | nil => cases n <;> simp [findAllSubmatch]
  | cons c cs ih =>
    cases n with
    | zero => rfl
    | succ n => simp only [findAllSubmatch, List.drop_succ_cons, ih n]

/-- The stripped page in lowercase. -/
theorem lowered_cons (v : Str) (vs : List Str) :
    ((v :: vs).map fun v => "mod id: ".toList ++ v ++ "\n".toList).flatten ++ "\n".toList
      = "mod id:".toList ++ ' ' :: (v ++ '\n' ::
          ((vs.map fun v => "mod id: ".toList ++ v ++ "\n".toList).flatten ++ "\n".toList)) := by
  simp only [List.map_cons, List.flatten_cons, List.append_assoc]
  rfl

theorem findAllSubmatch_lowered (vs : List Str) (h : ∀ v ∈ vs, digitString v) :
    findAllSubmatch "mod id:".toList 0
        ((vs.map fun v => "mod id: ".toList ++ v ++ "\n".toList).flatten ++ "\n".toList)
      = vs := by
  induction vs with
  | nil => rfl
  | cons v vs ih =>
    have hv := h v (by simp)
    have ih' := ih (fun x hx => h x (List.mem_cons_of_mem _ hx))
    rw [lowered_cons]
    generalize hrest :
      ((vs.map fun v => "mod id: ".toList ++ v ++ "\n".toList).flatten ++ "\n".toList) = rest
      at ih'
    have hm := matchValueAt_digits v rest hv
    have hstep : findAllSubmatch "mod id:".toList 0
        ("mod id:".toList ++ ' ' :: (v ++ '\n' :: rest))
        = v :: findAllSubmatch "mod id:".toList 0
            (rest.drop (rest.takeWhile isRegexSpace).length) := by
      have hcons : "mod id:".toList ++ ' ' :: (v ++ '\n' :: rest)
          = 'm' :: ("od id:".toList ++ ' ' :: (v ++ '\n' :: rest)) := rfl
      rw [hcons] at hm ⊢
      rw [findAllSubmatch, hm]
      simp only []
      rw [findAllSubmatch_skip]
      congr 1
      have hd : ("od id:".toList ++ ' ' :: (v ++ '\n' :: rest)).drop
          (7 + 1 + (v.length + (1 + (rest.takeWhile isRegexSpace).length)) - 1)
          = rest.drop (rest.takeWhile isRegexSpace).length := by
        have e1 : 7 + 1 + (v.length + (1 + (rest.takeWhile isRegexSpace).length)) - 1
            = ("od id:".toList ++ ' ' :: (v ++ ['\n'])).length
                + (rest.takeWhile isRegexSpace).length := by
          have h6 : "od id:".toList.length = 6 := rfl
          simp only [List.length_append, List.length_cons, List.length_nil, h6]
          omega
        have e2 : "od id:".toList ++ ' ' :: (v ++ '\n' :: rest)
            = ("od id:".toList ++ ' ' :: (v ++ ['\n'])) ++ rest := by
          simp [List.append_assoc]
        rw [e1, e2, List.drop_append]
      rw [hd]
    rw [hstep]
    congr 1
    cases vs with
    | nil =>
      simp only [List.map_nil, List.flatten_nil, List.nil_append] at hrest
      rw [← hrest]
      rfl
    | cons v2 vs2 =>
      have hr2 : rest.takeWhile isRegexSpace = [] := by
        rw [← hrest, lowered_cons]
        rfl
      rw [hr2]
      exact ih'

theorem indexFrom_of_occurs (sub post pre : Str) :
    ∃ pre' post' : Str, pre ++ sub ++ post = pre' ++ sub ++ post'
      ∧ ∀ i : Nat, indexFrom sub (pre ++ sub ++ post) i = ((i + pre'.length : Nat) : Int) := by
  induction pre with
  | nil =>
    refine ⟨[], post, rfl, fun i => ?_⟩
    rw [List.nil_append, indexFrom_of_isPrefixOf _ _ _ (isPrefixOf_append_self _ _)]
    rfl
  | cons c pre ih =>
    obtain ⟨pre0, post0, hdec, hidx⟩ := ih
    by_cases hp : sub.isPrefixOf (c :: pre ++ sub ++ post) = true
    · obtain ⟨t, ht⟩ := List.isPrefixOf_iff_prefix.mp hp
      refine ⟨[], t, by simpa using ht.symm, fun i => ?_⟩
      rw [indexFrom_of_isPrefixOf _ _ _ hp]
      rfl
    · refine ⟨c :: pre0, post0, by simp only [List.cons_append, hdec], fun i => ?_⟩
      simp only [List.cons_append] at hp ⊢
      rw [indexFrom, if_neg hp, hidx (i + 1), List.length_cons]
      congr 1
      omega

theorem map_toLower_eq_digits (x v : Str) (hx : x.map Char.toLower = v)
    (hv : ∀ c ∈ v, c.isDigit = true) : x = v := by
  induction x generalizing v with
  | nil => simpa using hx
  | cons a x ih =>
    cases v with
    | nil => simp at hx
    | cons b v =>
      simp only [List.map_cons, List.cons.injEq] at hx
      obtain ⟨hab, hxv⟩ := hx
      have hd : a.toLower.isDigit = true := by
        rw [hab]
        exact hv b (by simp)
      rw [← hab, digit_of_toLower a hd, ih v hxv (fun c hc => hv c (List.mem_cons_of_mem _ hc))]

theorem TrimSpace_of_digits (v : Str) (hv : ∀ c ∈ v, c.isDigit = true) : TrimSpace v = v := by
  have hdrop : ∀ l : Str, (∀ c ∈ l, c.isDigit = true) → l.dropWhile isSpace = l := by
    intro l hl
    cases l with
    | nil => rfl
    | cons c cs =>
      exact List.dropWhile_cons_of_neg (by simp [not_space_of_digit c (hl c (by simp))])
  unfold TrimSpace
  rw [hdrop v hv, hdrop v.reverse (fun c hc => hv c (List.mem_reverse.mp hc)), List.reverse_reverse]

/-- The value recovered for a captured digit string that occurs in the
lowercase text is the digit string itself. -/
theorem recoverValues_digits (a : Str) (ms : List Str)
    (h : ∀ m ∈ ms, (∀ c ∈ m, c.isDigit = true) ∧ ∃ pre post, ToLower a = pre ++ m ++ post) :
    recoverValues a (ToLower a) ms = .ok ms := by
  induction ms with
  | nil => rfl
  | cons m ms ih =>
    obtain ⟨hdig, pre, post, hocc⟩ := h m (by simp)
    obtain ⟨pre', post', hdec, hidx⟩ := indexFrom_of_occurs m post pre
    have hi : Index (ToLower a) m = (pre'.length : Int) := by
      rw [Index, hocc, hidx 0]
      simp
    have hlow : ToLower a = pre' ++ m ++ post' := by rw [hocc, hdec]
    have hlen : a.length = pre'.length + m.length + post'.length := by
      have := congrArg List.length hlow
      simp only [ToLower, List.length_map, List.length_append] at this
      omega
    have hval : (a.drop pre'.length).take m.length = m := by
      apply map_toLower_eq_digits _ _ _ hdig
      have : ((a.drop pre'.length).take m.length).map Char.toLower
          = ((ToLower a).drop pre'.length).take m.length := by
        simp [ToLower, List.map_take, List.map_drop]
      rw [this, hlow, List.append_assoc, List.drop_left, List.take_left]
    have hslice : slice a (pre'.length : Int) ((pre'.length : Int) + (m.length : Int))
        = .ok m := by
      have hc : (0 : Int) ≤ (pre'.length : Int)
          ∧ (pre'.length : Int) ≤ (pre'.length : Int) + (m.length : Int)
          ∧ (pre'.length : Int) + (m.length : Int) ≤ (a.length : Int) := by
        omega
      have hsub : ((pre'.length : Int) + (m.length : Int)).toNat - pre'.length
          = m.length := by omega
      simp only [slice, hc, and_self, if_true, Int.toNat_ofNat, hsub, hval]
    simp only [recoverValues, hi, hslice, bind, Except.bind,
      ih (fun x hx => h x (List.mem_cons_of_mem _ hx)), TrimSpace_of_digits m hdig]

theorem occurs_in_lowered (vs : List Str) (v : Str) (hv : v ∈ vs) :
    ∃ pre post : Str,
      (vs.map fun v => "mod id: ".toList ++ v ++ "\n".toList).flatten ++ "\n".toList
        = pre ++ v ++ post := by
  induction vs with
  | nil => cases hv
  | cons w vs ih =>
    rcases List.mem_cons.mp hv with rfl | hmem
    · exact ⟨"mod id: ".toList, "\n".toList ++
        ((vs.map fun v => "mod id: ".toList ++ v ++ "\n".toList).flatten ++ "\n".toList),
        by simp [List.append_assoc]⟩
    · obtain ⟨pre, post, hdec⟩ := ih hmem
      refine ⟨"mod id: ".toList ++ w ++ "\n".toList ++ pre, post, ?_⟩
      simp only [List.map_cons, List.flatten_cons, List.append_assoc] at hdec ⊢
      rw [hdec]

theorem ToLower_stripped (vs : List Str) (h : ∀ v ∈ vs, digitString v) :
    ToLower ((vs.map fun v => "Mod ID: ".toList ++ v ++ "\n".toList).flatten ++ "\n".toList)
      = (vs.map fun v => "mod id: ".toList ++ v ++ "\n".toList).flatten ++ "\n".toList := by
  induction vs with
  | nil => rfl
  | cons v vs ih =>
    have hv := h v (by simp)
    have ih' := ih (fun x hx => h x (List.mem_cons_of_mem _ hx))
    simp only [List.map_cons, List.flatten_cons, List.append_assoc, ToLower_append] at ih' ⊢
    rw [ih', ToLower_of_digits v hv.2]
    rfl

theorem findVariant_of_first (s sub : Str) (others : List Str) (k : Nat)
    (h : Index s sub = (k : Int)) : findVariant s (sub :: others) = sub := by
  have : Contains s sub = true := by
    simp only [Contains, h, decide_eq_true_eq]
    omega
  simp [findVariant, this]

/-- C14: for every non-empty list `v1..vn` of non-empty ASCII digit strings,
`stripParse` of the page `<div>Mod ID: v1<br/>...Mod ID: vn<br/></div>` with the
variants of `Mod ID:` returns exactly `[v1, ..., vn]`: one value for each
occurrence of the label, in order of occurrence, duplicates kept. -/
theorem stripParse_values_in_order (vs : List Str) (hne : vs ≠ [])
    (h : ∀ v ∈ vs, digitString v) :
    stripParse (modIdPage vs) (produceVariants "Mod ID:".toList) = .ok vs := by
  obtain ⟨v, vs', rfl⟩ : ∃ v vs', vs = v :: vs' := by
    cases vs with
    | nil => exact absurd rfl hne
    | cons v vs' => exact ⟨v, vs', rfl⟩
  have hvar : produceVariants "Mod ID:".toList
      = ["mod id:".toList, "modid:".toList, "mod id".toList] := rfl
  have hpage : modIdPage (v :: vs')
      = "<div>".toList ++ (((v :: vs').map modIdBlock).flatten ++ "</div>".toList) := by
    simp only [modIdPage, List.append_assoc]
  have hlowpage : ∃ post, ToLower (modIdPage (v :: vs'))
      = "<div>".toList ++ ('m' :: "od id:".toList) ++ post := by
    refine ⟨ToLower (" ".toList ++ v ++ ('<' :: ("br/".toList ++ '>' ::
        ((vs'.map modIdBlock).flatten ++ "</div>".toList)))), ?_⟩
    rw [hpage, modIdPage_cons]
    simp only [ToLower_append, List.append_assoc]
    rfl
  obtain ⟨post, hpost⟩ := hlowpage
  have hidx : Index (ToLower (modIdPage (v :: vs'))) "mod id:".toList = ((5 : Nat) : Int) := by
    rw [hpost]
    exact Index_skip_to 'm' "od id:".toList "<div>".toList post (by decide)
  have hfind : findVariant (ToLower (modIdPage (v :: vs')))
      (produceVariants "Mod ID:".toList) = "mod id:".toList := by
    rw [hvar]
    exact findVariant_of_first _ _ _ 5 hidx
  have hle : 5 ≤ (modIdPage (v :: vs')).length := by
    rw [hpage, List.length_append]
    have : "<div>".toList.length = 5 := rfl
    omega
  have hdrop : (modIdPage (v :: vs')).drop 5
      = ((v :: vs').map modIdBlock).flatten ++ "</div>".toList := by
    rw [hpage]
    exact drop_label _ _ 5 rfl
  have htake : (modIdPage (v :: vs')).take 5 = "<div>".toList := by
    rw [hpage]
    exact List.take_left' rfl
  have hfresh : Index ((modIdPage (v :: vs')).drop 5) ((modIdPage (v :: vs')).take 5) = -1 := by
    rw [hdrop, htake]
    exact no_div_in_modIdBlocks (v :: vs') h 0
  rw [stripParse_eq_suffix _ _ 5 (by rw [hfind]; exact hidx) (by decide) hle hfresh]
  have hstrip : StripHTMLTags ((modIdPage (v :: vs')).drop 5)
      = ((v :: vs').map fun v => "Mod ID: ".toList ++ v ++ "\n".toList).flatten ++ "\n".toList := by
    rw [hdrop]
    exact strip_modIdBlocks (v :: vs') h
  have hlow := ToLower_stripped (v :: vs') h
  have hfind2 : findVariant
      (((v :: vs').map fun v => "mod id: ".toList ++ v ++ "\n".toList).flatten ++ "\n".toList)
      (produceVariants "Mod ID:".toList) = "mod id:".toList := by
    rw [hvar, lowered_cons]
    apply findVariant_of_first _ _ _ 0
    have := indexFrom_of_isPrefixOf "mod id:".toList
      ("mod id:".toList ++ ' ' :: (v ++ '\n' ::
        ((vs'.map fun v => "mod id: ".toList ++ v ++ "\n".toList).flatten ++ "\n".toList))) 0
      (isPrefixOf_append_self _ _)
    simpa [Index] using this
  simp only [stripParseSuffix, hfind, hidx, Int.toNat_ofNat, hstrip, hlow, hfind2, parseValues,
    findAllSubmatch_lowered (v :: vs') h]
  rw [← hlow]
  apply recoverValues_digits
  intro m hm
  refine ⟨(h m hm).2, ?_⟩
  rw [hlow]
  exact occurs_in_lowered (v :: vs') m hm

/-- Witness of C14: the values `111`, `222`. -/
theorem stripParse_values_in_order_witness :
    modIdPage ["111".toList, "222".toList]
        = "<div>Mod ID: 111<br/>Mod ID: 222<br/></div>".toList
      ∧ stripParse (modIdPage ["111".toList, "222".toList]) (produceVariants "Mod ID:".toList)
        = .ok ["111".toList, "222".toList] :=
  ⟨by rfl, stripParse_values_in_order ["111".toList, "222".toList] (by decide) (by decide)⟩

/-! ## Theorems: the variants beyond ASCII -/

theorem latin1ToLower_idem (c : Char) : latin1ToLower (latin1ToLower c) = latin1ToLower c := by
  unfold latin1ToLower
  by_cases h : (65 ≤ c.toNat ∧ c.toNat ≤ 90) ∨ (192 ≤ c.toNat ∧ c.toNat ≤ 222 ∧ c.toNat ≠ 215)
  · simp only [h, if_true]
    generalize c.toNat = n at h
    rcases h with ⟨h1, h2⟩ | ⟨h1, h2, h3⟩
    · interval_cases n <;> rfl
    · interval_cases n <;> rfl
  · simp only [h, if_false]

/-- Witness of C15 on a label with a letter outside ASCII: `ÄB C:` gives
`äb c:`, `äbc:`, `äb c` under the Latin-1 case table, and the same list again
from its first element. -/
theorem produceVariants_three_witness :
    produceVariantsBy latin1ToLower "ÄB C:".toList
        = ["äb c:".toList, "äbc:".toList, "äb c".toList]
      ∧ produceVariantsBy latin1ToLower (ToLowerBy latin1ToLower "ÄB C:".toList)
        = produceVariantsBy latin1ToLower "ÄB C:".toList :=
  ⟨by rfl, (produceVariants_three latin1ToLower "ÄB C:".toList).2.2.2.1
    (fun c _ => latin1ToLower_idem c)⟩

end ZomboidModList
